import Mathlib

/-!
Verification of the TensorFlow SIL utility pass (`TFUtilities.cpp` /
`TFUtilities.h`): a shallow embedding of the constant resolver, the array
decoder, the `__tfop_` operand-role name grammar, the attribute validator and
the operand canonicalizer, together with proofs of the specified properties.

The SIL def-use graph is embedded as a tree of defining instructions
(`Value`).  Where the C++ walks *uses* of an allocation
(`getSingleUserOfType`, `rti->getUses()`), the relevant users are carried as
data on the allocation constructor, mirroring exactly the information those
queries return.  Machine integers (`APInt::getLimitedValue`, `uint64_t`
arithmetic) are modelled as `Nat` with explicit `% 2 ^ 64` where the C++
wraps.  C++ null-pointer dereferences (e.g. `getAttrOperand(..)->getResults()`
on a null result) are modelled as `Option.none` propagation.  The target is
modelled as 64-bit (`is64` is threaded explicitly where the source consults
the target triple).
-/

namespace TFU

/-- Kinds of `BuiltinFloatType` (`getFPKind`). -/
inductive FPKind
| ieee16 | ieee32 | ieee64 | ieee80 | ieee128 | ppc128
deriving DecidableEq, Repr

/-- String literal encodings; the source only accepts `Encoding::UTF8`. -/
inductive StrEncoding
| utf8 | other
deriving DecidableEq, Repr

/-- The builtin operation IDs that `getAttrOperand` looks through when
unwrapping bridged string representations (`BuiltinValueKind`). -/
inductive BuiltinKind
| andOp | orOp | zextOrBitCast | ptrToInt | otherOp
deriving DecidableEq, Repr

/-- Static types, as far as this pass inspects them: `StructType` with its
defining module and name (`convertSwiftTypeToTF`), `Array<T>`
(`getArrayElementType`), `TensorHandle<T>` (`isTensorHandle`), builtin
integer/float types, metatypes, and everything else opaque. -/
inductive Ty
| namedStruct (module : Option String) (name : String)
| arrayTy (elem : Ty)
| tensorHandleTy (elem : Ty)
| builtinIntTy (width : Nat)
| builtinIntPtrTy
| builtinFloatTy (kind : FPKind)
| metatypeTy (instanceTy : Ty)
| rawPointerTy
| otherTy (id : Nat)
deriving DecidableEq, Repr

/-- `ty->isEqual(ctx.getStringDecl()->getDeclaredType())`: the stdlib
`Swift.String` struct type. -/
def Ty.isStdString : Ty → Bool
| .namedStruct (some "Swift") "String" => true
| _ => false

/-- `tf::isTensorHandle(SILType)`: true for `TensorHandle<T>`. -/
def isTensorHandle : Ty → Bool
| .tensorHandleTy _ => true
| _ => false

/-- `getArrayElementType`: element type of `Swift.Array`, else none. -/
def getArrayElementType : Ty → Option Ty
| .arrayTy e => some e
| _ => none

/-- TensorFlow `TF_DataType` codes from `tensorflow/c/c_api.h`. -/
def TF_FLOAT : Nat := 1
def TF_DOUBLE : Nat := 2
def TF_INT32 : Nat := 3
def TF_UINT8 : Nat := 4
def TF_INT16 : Nat := 5
def TF_INT8 : Nat := 6
def TF_INT64 : Nat := 9
def TF_BOOL : Nat := 10
def TF_UINT16 : Nat := 17
def TF_HALF : Nat := 19
def TF_UINT32 : Nat := 22
def TF_UINT64 : Nat := 23

/-- `tf::convertSwiftTypeToTF`: maps a Swift type to a `TF_DataType` code,
`0` meaning "not representable".  `is64` is
`LangOpts.Target.isArch64Bit()`. -/
def convertSwiftTypeToTF (is64 : Bool) : Ty → Nat
| .namedStruct mod name =>
  -- Make sure the type is defined inside the Swift module.
  if mod ≠ some "Swift" then 0
  else if name = "Bool" then TF_BOOL
  else if name = "Int8" then TF_INT8
  else if name = "UInt8" then TF_UINT8
  else if name = "Int16" then TF_INT16
  else if name = "UInt16" then TF_UINT16
  else if name = "Int32" then TF_INT32
  else if name = "UInt32" then TF_UINT32
  else if name = "Int64" then TF_INT64
  else if name = "UInt64" then TF_UINT64
  else if name = "Float" then TF_FLOAT
  else if name = "Double" then TF_DOUBLE
  else if name = "Int" then (if is64 then TF_INT64 else TF_INT32)
  else if name = "UInt" then (if is64 then TF_UINT64 else TF_UINT32)
  else 0
| .builtinIntPtrTy => if is64 then TF_INT64 else TF_INT32
| .builtinIntTy w =>
  if w = 1 then TF_BOOL
  else if w = 8 then TF_INT8
  else if w = 16 then TF_INT16
  else if w = 32 then TF_INT32
  else if w = 64 then TF_INT64
  else 0
| .builtinFloatTy k =>
  match k with
  | .ieee16 => TF_HALF
  | .ieee32 => TF_FLOAT
  | .ieee64 => TF_DOUBLE
  | _ => 0
| _ => 0

/-- `isValidTensorFlowElementType`. -/
def isValidTensorFlowElementType (is64 : Bool) (ty : Ty) : Bool :=
  convertSwiftTypeToTF is64 ty ≠ 0

mutual
/-- A SIL value, identified with its defining instruction.  Operands are
subterms.  `allocRef` additionally carries the use-side data that
`decodeArrayElements` queries: the list of its `UpcastInst` users, for each of
those the list of its `RefTailAddrInst` users, and for each of those its list
of uses (`TailUse`).  `allocStack` carries the sources of its `StoreInst`
users (`getSingleUserOfType<StoreInst>`).  `globalValue` carries the tail
elements of its referenced global's `ObjectInst` static initializer, when
there is one.  `unknownV` stands for any value whose defining instruction is
none of the kinds this pass inspects (e.g. function arguments or runtime
`TensorHandle` values). -/
inductive Value
| structV (ty : Ty) (ops : List Value)
| enumV (ty : Ty) (payload : Option Value)
| uncheckedBitwiseCast (ty : Ty) (op : Value)
| uncheckedRefCast (ty : Ty) (op : Value)
| upcastV (ty : Ty) (op : Value)
| builtinV (ty : Ty) (kind : BuiltinKind) (ops : List Value)
| intLit (width : Nat) (val : Int)
| floatLit (kind : FPKind) (bits : Nat)
| strLit (enc : StrEncoding) (s : String)
| metatypeV (instanceTy : Ty)
| allocStack (ty : Ty) (storeSrcs : List Value)
| allocRef (ty : Ty) (ops : List Value) (upcastUsers : List (List (List TailUse)))
| globalValue (ty : Ty) (staticInitTail : Option (List Value))
| rawPointerToRef (ty : Ty) (op : Value)
| addressToPointer (op : Value)
| globalAddr (name : String)
| unknownV (ty : Ty) (addr : Bool)

/-- One use of the `ref_tail_addr` backing an array allocation: a direct
`store` (its source), an `index_addr` (its index operand, and the users of
its uses — the decoder requires exactly one use, whose user must be a
`store`), or any other user. -/
inductive TailUse
| storeU (src : Value)
| indexU (idx : Value) (users : List IdxUser)
| otherU

/-- The user of the single use of an `index_addr` hanging off the tail
address: a `store` (with its source) or anything else. -/
inductive IdxUser
| storeU (src : Value)
| otherU
end

/-- The static type of a value (`SILValue::getType`, rvalue part). -/
def Value.ty : Value → Ty
| .structV t _ => t
| .enumV t _ => t
| .uncheckedBitwiseCast t _ => t
| .uncheckedRefCast t _ => t
| .upcastV t _ => t
| .builtinV t _ _ => t
| .intLit w _ => .builtinIntTy w
| .floatLit k _ => .builtinFloatTy k
| .strLit _ _ => .rawPointerTy
| .metatypeV t => .metatypeTy t
| .allocStack t _ => t
| .allocRef t _ _ => t
| .globalValue t _ => t
| .rawPointerToRef t _ => t
| .addressToPointer _ => .rawPointerTy
| .globalAddr _ => .otherTy 0
| .unknownV t _ => t

/-- `SILType::isAddress`: `alloc_stack` and `global_addr` produce addresses;
`opaque` carries an explicit flag. -/
def Value.isAddress : Value → Bool
| .allocStack _ _ => true
| .globalAddr _ => true
| .unknownV _ addr => addr
| _ => false

/-- `SILTensorOpInfo::getScalarOperand`.  For a non-address value, a
single-operand `struct` is unwrapped one level (the stdlib `Int`/`Float` box)
and anything else is returned unchanged.  For an address, an `alloc_stack`
with a single `store` user resolves recursively to the stored value; any
other address is unresolved (`SILValue()`, modelled as `none`). -/
def getScalarOperand (v : Value) : Option Value :=
  if v.isAddress then
    match v with
    | .allocStack _ [src] => getScalarOperand src
    | _ => none
  else
    match v with
    | .structV _ [op] => some op
    | v => some v

/-- `APInt::getLimitedValue()` on the value of an integer literal of bit
width `w`: the unsigned interpretation, saturated at `UINT64_MAX`. -/
def limitedValue (w : Nat) (val : Int) : Nat :=
  min (val % (2 ^ w : Int)).toNat (2 ^ 64 - 1)

/-- One iteration of the use-walk in `decodeArrayElements`: a use of the
`ref_tail_addr` yields `(index, storedValue)` when it is a direct store
(index 0) or an `index_addr` with an integer-literal index whose single use
is a store; anything else fails. -/
def tailUseStore : TailUse → Option (Nat × Value)
| .storeU src => some (0, src)
| .indexU idx users =>
  match idx with
  | .intLit w val =>
    match users with
    | [.storeU src] => some (limitedValue w val, src)
    | _ => none
  | _ => none
| .otherU => none

/-- The store-collecting loop of `decodeArrayElements`: walk the uses of the
tail address, requiring each to be a store to a valid index that has not been
stored to yet; fill `slots` and decrement the remaining-element counter. -/
def processTailUses : List TailUse → List (Option Value) → Nat →
    Option (List (Option Value) × Nat)
| [], slots, n => some (slots, n)
| u :: us, slots, n =>
  match tailUseStore u with
  | none => none
  | some (idx, src) =>
    match slots.get? idx with
    | some none => processTailUses us (slots.set idx (some src)) (n - 1)
    | _ => none

/-- Collapse a list of optional values, succeeding only when all are
present. -/
def allSome : List (Option Value) → Option (List Value)
| [] => some []
| none :: _ => none
| some v :: rest =>
  match allSome rest with
  | some vs => some (v :: vs)
  | none => none

/-- The `alloc_ref` case of `decodeArrayElements`: the allocation must have a
single integer-literal element-count operand, a single `upcast` user, which
must have a single `ref_tail_addr` user, whose uses must store to every index
exactly once. -/
def decodeAllocRef (ops : List Value)
    (upcastUsers : List (List (List TailUse))) : Option (List Value) :=
  match ops with
  | [Value.intLit w val] =>
    match upcastUsers with
    | [[uses]] =>
      match processTailUses uses (List.replicate (limitedValue w val) none)
          (limitedValue w val) with
      | some (slots, rem) => if rem = 0 then allSome slots else none
      | none => none
    | _ => none
  | _ => none

/-- The unwrap loop of `decodeArrayElements`: strip single-operand structs,
`unchecked_ref_cast` and `upcast` wrappers down to the `alloc_ref`; a
`global_value` with an `object` static initializer yields its tail elements;
the well-known `_swiftEmptyArrayStorage` global reached through
`raw_pointer_to_ref (address_to_pointer (global_addr _))` yields the empty
element list; any other shape fails. -/
def decodeLoop : Value → Option (List Value)
| .allocRef _ ops users => decodeAllocRef ops users
| .structV _ [op] => decodeLoop op
| .uncheckedRefCast _ op => decodeLoop op
| .upcastV _ op => decodeLoop op
| .globalValue _ (some elts) => some elts
| .rawPointerToRef _ (.addressToPointer (.globalAddr nm)) =>
  if nm = "_swiftEmptyArrayStorage" then some [] else none
| _ => none

/-- `decodeArrayElements`: requires the static type of the value to be
`Swift.Array` (extracting the element type), then decodes the
initialization pattern into the ordered element values. -/
def decodeArrayElements (v : Value) : Option (List Value × Ty) :=
  match getArrayElementType v.ty with
  | none => none
  | some elemTy =>
    match decodeLoop v with
    | some elts => some (elts, elemTy)
    | none => none

/-- The string-literal unwrap chain at the top of `getAttrOperand`: peel
structs, non-empty `enum` (optional) wrapping, `unchecked_bitwise_cast`, and
the `And`/`Or`/`ZExtOrBitCast`/`PtrToInt` builtins down to a `string_literal`
instruction, which must be UTF-8; any other shape is a non-constant string,
rejected. -/
def stringChain : Value → Option Value
| .strLit enc s => if enc = .utf8 then some (.strLit enc s) else none
| .structV _ (op :: _) => stringChain op
| .enumV _ (some p) => stringChain p
| .uncheckedBitwiseCast _ op => stringChain op
| .builtinV _ k (op :: _) =>
  match k with
  | .andOp | .orOp | .zextOrBitCast | .ptrToInt => stringChain op
  | .otherOp => none
| _ => none

/-- The scalar tail of `getAttrOperand`: simplify via `getScalarOperand`,
then accept exactly a float literal, an integer literal of bit width at most
64, a UTF-8 string literal, or a metatype whose instance type has a non-zero
TensorFlow type code (on the modelled 64-bit target). -/
def attrLiteralCheck (v : Value) : Option Value :=
  match getScalarOperand v with
  | none => none
  | some s =>
    match s with
    | .floatLit k b => some (.floatLit k b)
    | .intLit w val => if w ≤ 64 then some (.intLit w val) else none
    | .strLit enc str => if enc = .utf8 then some (.strLit enc str) else none
    | .metatypeV t =>
      if convertSwiftTypeToTF true t ≠ 0 then some (.metatypeV t) else none
    | _ => none

/-- A stored element recovered by `tailUseStore` is structurally smaller than
the use it came from. -/
theorem sizeOf_tailUseStore {u : TailUse} {i : Nat} {x : Value}
    (h : tailUseStore u = some (i, x)) : sizeOf x < sizeOf u := by
  cases u with
  | storeU src =>
    simp only [tailUseStore, Option.some.injEq, Prod.mk.injEq] at h
    obtain ⟨-, rfl⟩ := h
    simp only [TailUse.storeU.sizeOf_spec]
    omega
  | indexU idx users =>
    cases idx <;> simp only [tailUseStore] at h
    case intLit w val =>
      cases users with
      | nil => exact absurd h (by simp)
      | cons u1 rest =>
        cases u1 with
        | storeU src =>
          cases rest with
          | nil =>
            simp only [Option.some.injEq, Prod.mk.injEq] at h
            obtain ⟨-, rfl⟩ := h
            simp only [TailUse.indexU.sizeOf_spec, IdxUser.storeU.sizeOf_spec,
              List.cons.sizeOf_spec, List.nil.sizeOf_spec]
            omega
          | cons _ _ => exact absurd h (by simp)
        | otherU => cases rest <;> exact absurd h (by simp)
    all_goals exact absurd h (by simp)
  | otherU => simp [tailUseStore] at h

/-- Any filled slot after the store-collecting loop was either filled before
the loop or is the source of one of the walked uses. -/
theorem processTailUses_mem {us : List TailUse} {slots slots' : List (Option Value)}
    {n rem : Nat} (h : processTailUses us slots n = some (slots', rem)) :
    ∀ x ∈ slots', x ∈ slots ∨ ∃ u ∈ us, ∃ i y, tailUseStore u = some (i, y) ∧ x = some y := by
  induction us generalizing slots n with
  | nil =>
    simp only [processTailUses, Option.some.injEq, Prod.mk.injEq] at h
    obtain ⟨rfl, rfl⟩ := h
    intro x hx
    exact Or.inl hx
  | cons u us ih =>
    simp only [processTailUses] at h
    split at h
    · exact absurd h (by simp)
    · rename_i idx src hu
      split at h
      · intro x hx
        rcases ih h x hx with hmem | ⟨u', hu', i, y, hst, rfl⟩
        · rcases List.mem_or_eq_of_mem_set hmem with hmem' | rfl
          · exact Or.inl hmem'
          · exact Or.inr ⟨u, List.mem_cons_self _ _, idx, src, hu, rfl⟩
        · exact Or.inr ⟨u', List.mem_cons_of_mem _ hu', i, y, hst, rfl⟩
      · exact absurd h (by simp)

/-- Every element extracted by `allSome` occurs (wrapped) in the slot
list. -/
theorem allSome_mem {slots : List (Option Value)} {elts : List Value}
    (h : allSome slots = some elts) : ∀ e ∈ elts, some e ∈ slots := by
  induction slots generalizing elts with
  | nil =>
    simp only [allSome, Option.some.injEq] at h
    subst h
    intro e he
    simp at he
  | cons s rest ih =>
    match s with
    | none => simp [allSome] at h
    | some v =>
      simp only [allSome] at h
      match hr : allSome rest with
      | none => rw [hr] at h; exact absurd h (by simp)
      | some vs =>
        rw [hr] at h
        simp only [Option.some.injEq] at h
        subst h
        intro e he
        rcases List.mem_cons.1 he with rfl | he'
        · exact List.mem_cons_self _ _
        · exact List.mem_cons_of_mem _ (ih hr e he')

/-- Elements decoded from an `alloc_ref` initialization pattern are
structurally smaller than the allocation's carried data. -/
theorem sizeOf_decodeAllocRef {ops : List Value}
    {users : List (List (List TailUse))} {elts : List Value}
    (h : decodeAllocRef ops users = some elts) :
    ∀ e ∈ elts, sizeOf e < sizeOf users := by
  intro e he
  unfold decodeAllocRef at h
  split at h
  case h_2 => exact absurd h (by simp)
  case h_1 w val =>
    split at h
    case h_2 => exact absurd h (by simp)
    case h_1 uses =>
      split at h
      case h_2 => exact absurd h (by simp)
      case h_1 slots rem hp =>
        split at h
        case isFalse => exact absurd h (by simp)
        case isTrue hrem =>
          have hmem := allSome_mem h e he
          rcases processTailUses_mem hp _ hmem with hrep | ⟨u, hu, i, y, hst, heq⟩
          · exact absurd (List.eq_of_mem_replicate hrep) (by simp)
          · obtain rfl : e = y := by simpa using heq
            calc sizeOf e < sizeOf u := sizeOf_tailUseStore hst
            _ < sizeOf uses := List.sizeOf_lt_of_mem hu
            _ < sizeOf ([[uses]] : List (List (List TailUse))) := by
              simp only [List.cons.sizeOf_spec, List.nil.sizeOf_spec]
              omega

/-- Elements produced by the array-decoding loop are structurally smaller
than the decoded value. -/
theorem sizeOf_decodeLoop : ∀ (m : Nat) (v : Value), sizeOf v ≤ m →
    ∀ elts, decodeLoop v = some elts → ∀ e ∈ elts, sizeOf e < sizeOf v := by
  intro m
  induction m using Nat.strong_induction_on with
  | _ m ih =>
    intro v hm elts h e he
    match v with
    | .allocRef t ops users =>
      simp only [decodeLoop] at h
      have := sizeOf_decodeAllocRef h e he
      simp only [Value.allocRef.sizeOf_spec]
      omega
    | .structV t [op] =>
      simp only [decodeLoop] at h
      have hop : sizeOf op < sizeOf (Value.structV t [op]) := by
        simp only [Value.structV.sizeOf_spec, List.cons.sizeOf_spec,
          List.nil.sizeOf_spec]
        omega
      have := ih (sizeOf op) (by omega) op le_rfl elts h e he
      omega
    | .uncheckedRefCast t op =>
      simp only [decodeLoop] at h
      have hop : sizeOf op < sizeOf (Value.uncheckedRefCast t op) := by
        simp only [Value.uncheckedRefCast.sizeOf_spec]
        omega
      have := ih (sizeOf op) (by omega) op le_rfl elts h e he
      omega
    | .upcastV t op =>
      simp only [decodeLoop] at h
      have hop : sizeOf op < sizeOf (Value.upcastV t op) := by
        simp only [Value.upcastV.sizeOf_spec]
        omega
      have := ih (sizeOf op) (by omega) op le_rfl elts h e he
      omega
    | .globalValue t (some init) =>
      simp only [decodeLoop, Option.some.injEq] at h
      subst h
      have := List.sizeOf_lt_of_mem he
      simp only [Value.globalValue.sizeOf_spec, Option.some.sizeOf_spec]
      omega
    | .rawPointerToRef t (.addressToPointer (.globalAddr nm)) =>
      simp only [decodeLoop] at h
      split at h
      · simp only [Option.some.injEq] at h
        subst h
        simp at he
      · exact absurd h (by simp)

/-- Elements of a decoded array are structurally smaller than the array
value; this bounds the recursion of `getAttrOperand` into array elements. -/
theorem sizeOf_decodeArrayElements {v : Value} {elts : List Value} {ty : Ty}
    (h : decodeArrayElements v = some (elts, ty)) :
    ∀ e ∈ elts, sizeOf e < sizeOf v := by
  intro e he
  simp only [decodeArrayElements] at h
  match getArrayElementType v.ty, h with
  | some elemTy, h =>
    match hl : decodeLoop v with
    | none => rw [hl] at h; exact absurd h (by simp)
    | some elts' =>
      rw [hl] at h
      simp only [Option.some.injEq, Prod.mk.injEq] at h
      obtain ⟨rfl, rfl⟩ := h
      exact sizeOf_decodeLoop (sizeOf v) v le_rfl _ hl e he

/-- `SILTensorOpInfo::getAttrOperand`: resolve a value to the constant
instruction providing it, or fail.  String-typed values go through the
string-literal unwrap chain; a `struct` that decodes as an array is a valid
constant as a whole if each element recursively is; otherwise the value is
simplified by `getScalarOperand` and must be one of the four accepted literal
shapes. -/
def getAttrOperand (v : Value) : Option Value :=
  if (Value.ty v).isStdString then stringChain v
  else
    match v with
    | .structV t ops =>
      match hm : decodeArrayElements (.structV t ops) with
      | some (elts, _) =>
        if elts.attach.all (fun e => (getAttrOperand e.1).isSome)
        then some (.structV t ops) else none
      | none => attrLiteralCheck (.structV t ops)
    | w => attrLiteralCheck w
termination_by sizeOf v
decreasing_by
  all_goals exact sizeOf_decodeArrayElements hm e.1 e.2

/-- `SILTensorOpInfo::AttributeModifier`: the operand-role vocabulary of this
revision (inputs are positional, not role entries). -/
inductive AttributeModifier
| Normal | DType | Tensor | Shape | Array | ArrayElement
deriving DecidableEq, Repr

/-- `SILTensorOpInfo::getAttributeModifierSuffix`. -/
def getAttributeModifierSuffix : AttributeModifier → List Char
| .Normal => []
| .DType => "$dtype".toList
| .Tensor => "$tensor".toList
| .Shape => "$shape".toList
| .Array => "$array".toList
| .ArrayElement => "$elt".toList

/-- Split a character list at commas: the leading segment, then one further
segment per comma (mirroring the `find(",")` / `substr` loop of
`decodeTensorOpName`). -/
def splitComma : List Char → List Char × List (List Char)
| [] => ([], [])
| c :: rest =>
  let p := splitComma rest
  if c = ',' then ([], p.1 :: p.2) else (c :: p.1, p.2)

/-- `decodeTensorOpName`: names of the form `__tfop_<OPNAME>(,<ATTR>)*`; the
attribute entries are initialized with the `Normal` modifier (suffix
processing happens in `decodeBuiltin`). -/
def decodeTensorOpName (name : List Char) :
    Option (List Char × List (List Char × AttributeModifier)) :=
  if name.take 7 = "__tfop_".toList then
    let p := splitComma (name.drop 7)
    some (p.1, p.2.map (fun s => (s, AttributeModifier.Normal)))
  else none

/-- The suffix-decoding step of `decodeBuiltin`: find the first `$` in the
attribute name; no `$` keeps the `Normal` modifier, a recognized suffix is
sliced off and decoded, an unrecognized suffix is a diagnosed error carrying
the suffix verbatim. -/
def resolveAttrSuffix (p : List Char × AttributeModifier) :
    Except (List Char) (List Char × AttributeModifier) :=
  let q := p.1.span (· != '$')
  match q.2 with
  | [] => .ok p
  | _ :: suffix =>
    if suffix = "tensor".toList then .ok (q.1, .Tensor)
    else if suffix = "shape".toList then .ok (q.1, .Shape)
    else if suffix = "dtype".toList then .ok (q.1, .DType)
    else if suffix = "array".toList then .ok (q.1, .Array)
    else if suffix = "elt".toList then .ok (q.1, .ArrayElement)
    else .error ("invalid attribute modifier '".toList ++ suffix ++ "'".toList)

/-- Resolve the suffix of every attribute entry, stopping at the first
error. -/
def resolveAllSuffixes : List (List Char × AttributeModifier) →
    Except (List Char) (List (List Char × AttributeModifier))
| [] => .ok []
| p :: ps =>
  match resolveAttrSuffix p with
  | .error m => .error m
  | .ok q =>
    match resolveAllSuffixes ps with
    | .error m => .error m
    | .ok qs => .ok (q :: qs)

/-- Outcome of parsing a builtin name against the op grammar: not an op at
all (no `__tfop_` tag), a diagnosed malformed descriptor (the
`tfop_invalid_tfop` diagnostic text), or the decoded op name and attribute
list. -/
inductive ParseResult
| notOp
| invalid (msg : List Char)
| ok (opName : List Char) (attrs : List (List Char × AttributeModifier))
deriving DecidableEq, Repr

/-- The name grammar of `decodeBuiltin`: `decodeTensorOpName` splitting
followed by suffix resolution. -/
def parseName (name : List Char) : ParseResult :=
  match decodeTensorOpName name with
  | none => .notOp
  | some (opName, rawAttrs) =>
    match resolveAllSuffixes rawAttrs with
    | .ok attrs => .ok opName attrs
    | .error m => .invalid m

/-- The encoding side of the name grammar, as produced by the name-building
of `canonicalizeOperands` / `expandArrayAttribute`: the `__tfop_` tag, the op
name, then one `,<attrName><suffix>` segment per attribute. -/
def emitName (opName : List Char)
    (attrs : List (List Char × AttributeModifier)) : List Char :=
  "__tfop_".toList ++ opName ++
    (attrs.map (fun p => ',' :: (p.1 ++ getAttributeModifierSuffix p.2))).flatten

/-- `SILTensorOpInfo` (the revision of `TFUtilities.cpp`): the analyzed
instruction is carried as its name, operand list and kind (`isApply` models
`isa<ApplyInst>(inst)`; infos built by `decodeBuiltin` are builtin
instructions).  `attributes` names the trailing attribute operands;
`numInputs` counts the leading input operands. -/
structure TensorOpInfo where
  isApply : Bool
  instName : List Char
  instOperands : List Value
  opName : List Char
  attributes : List (List Char × AttributeModifier)
  numInputs : Nat

/-- The per-input check of `decodeBuiltin`: a `TensorHandle` is fine;
otherwise the operand is reduced by `getScalarOperand` and its type must have
a non-zero TensorFlow type code (a null scalar reduction is the modelled
crash of `op->getType()` on a null `SILValue`). -/
def checkInput (op : Value) : Bool :=
  if isTensorHandle op.ty then true
  else
    match getScalarOperand op with
    | none => false
    | some s => isValidTensorFlowElementType true s.ty

/-- `SILTensorOpInfo::decodeBuiltin`: parse the builtin name, then check that
each input operand is a `TensorHandle` or a TF-representable scalar.  Any
grammar error, operand shortfall or bad input type makes the decode fail
(after emitting a diagnostic, which is not tracked here). -/
def decodeBuiltin (name : List Char) (operands : List Value) :
    Option TensorOpInfo :=
  match parseName name with
  | .ok opName attrs =>
    if operands.length < attrs.length then none
    else if (operands.take (operands.length - attrs.length)).all checkInput then
      some { isApply := false, instName := name, instOperands := operands,
             opName := opName, attributes := attrs,
             numInputs := operands.length - attrs.length }
    else none
  | _ => none

/-- Fetch operand `i` of the analyzed instruction and resolve it via
`getAttrOperand`. -/
def getAttrOperandAt (info : TensorOpInfo) (i : Nat) : Option Value :=
  match info.instOperands.get? i with
  | some v => getAttrOperand v
  | none => none

/-- The dimension-product loop of the tensor-shape check in
`checkAttributeConstants`: every shape element must resolve to an integer
literal; the running product is `uint64_t` arithmetic. -/
def shapeProductLoop : List Value → Nat → Option Nat
| [], acc => some acc
| e :: rest, acc =>
  match getAttrOperand e with
  | some (.intLit w val) => shapeProductLoop rest (acc * limitedValue w val % 2 ^ 64)
  | _ => none

/-- The attribute walk of `SILTensorOpInfo::checkAttributeConstants`,
iterating over the remaining attribute entries with the current operand
index; returns the first error string, or `[]` for success. -/
def checkAttributeConstantsLoop (info : TensorOpInfo) :
    List (List Char × AttributeModifier) → Nat → List Char
| [], _ => []
| (aname, amod) :: rest, opIdx =>
  match getAttrOperandAt info opIdx with
  | none => "attribute '".toList ++ aname ++ "' requires a constant argument".toList
  | some operand =>
    match amod with
    | .Normal => checkAttributeConstantsLoop info rest (opIdx + 1)
    | .DType =>
      match operand with
      | .intLit _ _ => checkAttributeConstantsLoop info rest (opIdx + 1)
      | _ => "attribute '".toList ++ aname ++ "' requires a constant integer".toList
    | .Shape =>
      match operand with
      | .metatypeV _ => checkAttributeConstantsLoop info rest (opIdx + 1)
      | _ => "attribute '".toList ++ aname ++
          "' requires a constant integer or floating point constant".toList
    | .Array =>
      match operand with
      | .metatypeV _ => checkAttributeConstantsLoop info rest (opIdx + 1)
      | _ => "attribute '".toList ++ aname ++
          "' requires a constant integer or floating point constant".toList
    | .ArrayElement =>
      match operand with
      | .intLit _ _ => checkAttributeConstantsLoop info rest (opIdx + 1)
      | .floatLit _ _ => checkAttributeConstantsLoop info rest (opIdx + 1)
      | _ => "attribute '".toList ++ aname ++
          "' requires a constant integer or floating point constant".toList
    | .Tensor =>
      match operand with
      | .intLit _ _ => checkAttributeConstantsLoop info rest (opIdx + 1)
      | .floatLit _ _ => checkAttributeConstantsLoop info rest (opIdx + 1)
      | .metatypeV _ => checkAttributeConstantsLoop info rest (opIdx + 1)
      | .structV sty sops =>
        match decodeArrayElements (.structV sty sops) with
        | none => "attribute '".toList ++ aname ++
            "' requires an array of constant values".toList
        | some (scalars, _) =>
          if scalars.all (fun e => (getAttrOperand e).isSome) then
            match rest with
            | (nextName, .Shape) :: rest2 =>
              if nextName = aname then
                match getAttrOperandAt info (opIdx + 1) with
                | none => "attribute '".toList ++ aname ++ "' has invalid shape".toList
                | some shapeOperand =>
                  match shapeOperand with
                  | .structV shty shops =>
                    match decodeArrayElements (.structV shty shops) with
                    | none => "attribute '".toList ++ aname ++
                        "' has non-constant shape".toList
                    | some (shape, _) =>
                      match shapeProductLoop shape 1 with
                      | none => "attribute '".toList ++ aname ++
                          "' has non-constant shape".toList
                      | some scalarCount =>
                        if scalarCount = scalars.length then
                          checkAttributeConstantsLoop info rest2 (opIdx + 2)
                        else
                          "tensor literal should have ".toList ++
                            (Nat.repr scalarCount).toList ++
                            " scalars for this shape, but has ".toList ++
                            (Nat.repr scalars.length).toList
                  | _ => "attribute '".toList ++ aname ++ "' has invalid shape".toList
              else if info.isApply then
                checkAttributeConstantsLoop info ((nextName, .Shape) :: rest2) (opIdx + 1)
              else
                "tensor array attribute '".toList ++ aname ++
                  "' must be followed by a shape".toList
            | other =>
              if info.isApply then checkAttributeConstantsLoop info other (opIdx + 1)
              else
                "tensor array attribute '".toList ++ aname ++
                  "' must be followed by a shape".toList
          else
            "attribute '".toList ++ aname ++
              "' requires an array of constant values".toList
      | _ => "attribute '".toList ++ aname ++
          "' requires a constant integer or floating point constant".toList
termination_by attrs _ => attrs.length
decreasing_by all_goals simp_arith [List.length_cons]

/-- `SILTensorOpInfo::checkAttributeConstants`: validate the trailing
attribute operands, returning the first error string or `[]` when all are
acceptable constants. -/
def checkAttributeConstants (info : TensorOpInfo) : List Char :=
  checkAttributeConstantsLoop info info.attributes
    (info.instOperands.length - info.attributes.length)

mutual
/-- Structural equality of values, modelling `SILValue` identity comparison
in `canonicalizeOperands` (two occurrences of the same SIL value are the
same node, hence structurally equal here). -/
def Value.beq : Value → Value → Bool
| .structV t1 o1, .structV t2 o2 => t1 == t2 && valueListBeq o1 o2
| .enumV t1 p1, .enumV t2 p2 => t1 == t2 && valueOptBeq p1 p2
| .uncheckedBitwiseCast t1 a, .uncheckedBitwiseCast t2 b => t1 == t2 && Value.beq a b
| .uncheckedRefCast t1 a, .uncheckedRefCast t2 b => t1 == t2 && Value.beq a b
| .upcastV t1 a, .upcastV t2 b => t1 == t2 && Value.beq a b
| .builtinV t1 k1 o1, .builtinV t2 k2 o2 => t1 == t2 && k1 == k2 && valueListBeq o1 o2
| .intLit w1 v1, .intLit w2 v2 => w1 == w2 && v1 == v2
| .floatLit k1 b1, .floatLit k2 b2 => k1 == k2 && b1 == b2
| .strLit e1 s1, .strLit e2 s2 => e1 == e2 && s1 == s2
| .metatypeV t1, .metatypeV t2 => t1 == t2
| .allocStack t1 s1, .allocStack t2 s2 => t1 == t2 && valueListBeq s1 s2
| .allocRef t1 o1 u1, .allocRef t2 o2 u2 =>
  t1 == t2 && valueListBeq o1 o2 && tailUse3Beq u1 u2
| .globalValue t1 i1, .globalValue t2 i2 => t1 == t2 && valueOptListBeq i1 i2
| .rawPointerToRef t1 a, .rawPointerToRef t2 b => t1 == t2 && Value.beq a b
| .addressToPointer a, .addressToPointer b => Value.beq a b
| .globalAddr n1, .globalAddr n2 => n1 == n2
| .unknownV t1 a1, .unknownV t2 a2 => t1 == t2 && a1 == a2
| _, _ => false

def valueListBeq : List Value → List Value → Bool
| [], [] => true
| a :: as, b :: bs => Value.beq a b && valueListBeq as bs
| _, _ => false

def valueOptBeq : Option Value → Option Value → Bool
| none, none => true
| some a, some b => Value.beq a b
| _, _ => false

def valueOptListBeq : Option (List Value) → Option (List Value) → Bool
| none, none => true
| some a, some b => valueListBeq a b
| _, _ => false

def TailUse.beq : TailUse → TailUse → Bool
| .storeU a, .storeU b => Value.beq a b
| .indexU i1 u1, .indexU i2 u2 => Value.beq i1 i2 && idxUserListBeq u1 u2
| .otherU, .otherU => true
| _, _ => false

def IdxUser.beq : IdxUser → IdxUser → Bool
| .storeU a, .storeU b => Value.beq a b
| .otherU, .otherU => true
| _, _ => false

def idxUserListBeq : List IdxUser → List IdxUser → Bool
| [], [] => true
| a :: as, b :: bs => IdxUser.beq a b && idxUserListBeq as bs
| _, _ => false

def tailUseListBeq : List TailUse → List TailUse → Bool
| [], [] => true
| a :: as, b :: bs => TailUse.beq a b && tailUseListBeq as bs
| _, _ => false

def tailUse2Beq : List (List TailUse) → List (List TailUse) → Bool
| [], [] => true
| a :: as, b :: bs => tailUseListBeq a b && tailUse2Beq as bs
| _, _ => false

def tailUse3Beq : List (List (List TailUse)) → List (List (List TailUse)) → Bool
| [], [] => true
| a :: as, b :: bs => tailUse2Beq a b && tailUse3Beq as bs
| _, _ => false
end

/-- `expandArrayAttribute`: decode the array, require every element to
resolve to a constant, re-tag `Normal` as `Array`, and produce the name
addition (attribute segment plus one `,$elt` segment per element) and the
operand addition (the element-type metatype marker followed by the resolved
elements; cross-function elements are re-created as equal literals, so the
resolved element value itself is appended). -/
def expandArrayAttribute (arrayVal : Value) (attrName : List Char)
    (attrKind : AttributeModifier) : Option (List Char × List Value) :=
  match decodeArrayElements arrayVal with
  | none => none
  | some (elements, elementType) =>
    match allSome (elements.map getAttrOperand) with
    | none => none
    | some elts =>
      some ((',' :: attrName) ++
              getAttributeModifierSuffix
                (if attrKind = .Normal then .Array else attrKind) ++
              (elts.map (fun _ => ',' :: getAttributeModifierSuffix .ArrayElement)).flatten,
            Value.metatypeV elementType :: elts)

/-- The input-operand rewriting of `canonicalizeOperands`: a `TensorHandle`
is kept, anything else is replaced by its `getScalarOperand` reduction (a
null reduction would build a builtin with a null operand — modelled as
failure). -/
def canonInputsLoop : List Value → Option (List Value)
| [] => some []
| op :: rest =>
  match (if isTensorHandle op.ty then some op else getScalarOperand op) with
  | none => none
  | some v =>
    match canonInputsLoop rest with
    | none => none
    | some vs => some (v :: vs)

/-- The attribute-operand rewriting of `canonicalizeOperands`: each attribute
operand is resolved via `getAttrOperand` (a null result is the modelled
null-pointer dereference); a non-`struct` result is appended verbatim with
its name segment, a `struct` result is an array and is expanded (the
`assert(isArray)` on a failed expansion is modelled as failure).  Returns the
name addition and the rewritten operand tail. -/
def canonAttrsLoop : List (List Char × AttributeModifier) → List Value →
    Option (List Char × List Value)
| [], _ => some ([], [])
| (aname, amod) :: rest, ops =>
  match ops with
  | [] => none
  | op :: ops2 =>
    match getAttrOperand op with
    | none => none
    | some attrOperand =>
      match attrOperand with
      | .structV t sops =>
        match expandArrayAttribute (.structV t sops) aname amod with
        | none => none
        | some (nAdd, opsAdd) =>
          match canonAttrsLoop rest ops2 with
          | none => none
          | some (nRest, opsRest) => some (nAdd ++ nRest, opsAdd ++ opsRest)
      | v =>
        match canonAttrsLoop rest ops2 with
        | none => none
        | some (nRest, opsRest) =>
          some ((',' :: aname) ++ getAttributeModifierSuffix amod ++ nRest,
                v :: opsRest)

/-- `SILTensorOpInfo::canonicalizeOperands`: recompute the flattened name and
operand list; if nothing changed, return the original instruction (`false`
marks "no rewrite"); otherwise build the new builtin and re-decode it (the
final `assert` on a failed re-decode is modelled as failure). -/
def canonicalizeOperands (info : TensorOpInfo) : Option (TensorOpInfo × Bool) :=
  match canonInputsLoop (info.instOperands.take info.numInputs),
        canonAttrsLoop info.attributes (info.instOperands.drop info.numInputs) with
  | some inputs, some (attrNamePart, attrOps) =>
    if ("__tfop_".toList ++ info.opName ++ attrNamePart) == info.instName &&
        valueListBeq (inputs ++ attrOps) info.instOperands then
      some (info, false)
    else
      match decodeBuiltin ("__tfop_".toList ++ info.opName ++ attrNamePart)
          (inputs ++ attrOps) with
      | some newInfo => some (newInfo, true)
      | none => none
  | _, _ => none

/-- A store to the tail address at constant index `i` (an `index_addr` with
an integer-literal index whose single use is a store of `v`). -/
def storeAt (i : Nat) (v : Value) : TailUse :=
  .indexU (.intLit 64 (i : Int)) [.storeU v]

/-- A value built by the recognized constant-array construction idiom: an
`alloc_ref` with a constant element-count operand, a single upcast user, a
single tail-address user of that upcast with the given uses, wrapped in the
array `struct`. -/
def mkArrayIdiom (elemTy allocTy : Ty) (n : Nat) (uses : List TailUse) : Value :=
  .structV (.arrayTy elemTy) [.allocRef allocTy [.intLit 64 (n : Int)] [[uses]]]

/-- The constant-array idiom populated with the given elements in order
(one constant-index store per element). -/
def mkArrayOf (elemTy : Ty) (elts : List Value) : Value :=
  mkArrayIdiom elemTy (.otherTy 1) elts.length
    (elts.enum.map (fun p => storeAt p.1 p.2))

/-- Scenario builder: an op whose attributes are a Tensor-role constant
integer array named `a` followed by a Shape-role constant integer array of
the same name (the host-instruction kind is `ap`). -/
def tensorShapeInfo (a : List Char) (ety : Ty) (ints : List Int)
    (dims : List Nat) (ap : Bool) : TensorOpInfo :=
  { isApply := ap, instName := [],
    instOperands := [mkArrayOf ety (ints.map (fun n => Value.intLit 32 n)),
      mkArrayOf ety (dims.map (fun d : Nat => Value.intLit 64 (d : Int)))],
    opName := [], attributes := [(a, .Tensor), (a, .Shape)], numInputs := 0 }

/-- The stdlib `Swift.Int` struct type. -/
def swiftIntTy : Ty := .namedStruct (some "Swift") "Int"

/-- A scalar input boxed in two nested single-operand structs (as produced by
stdlib wrapper types around wrapper types). -/
def nestedScalarInput : Value :=
  .structV swiftIntTy [.structV swiftIntTy [.intLit 64 5]]

/-- The op info decoded from `__tfop_Op` applied to `nestedScalarInput`. -/
def c3Info0 : TensorOpInfo :=
  { isApply := false, instName := "__tfop_Op".toList,
    instOperands := [nestedScalarInput], opName := "Op".toList,
    attributes := [], numInputs := 1 }

/-- The rewrite of `c3Info0` after one canonicalization (one struct layer
unwrapped). -/
def c3Info1 : TensorOpInfo :=
  { isApply := false, instName := "__tfop_Op".toList,
    instOperands := [.structV swiftIntTy [.intLit 64 5]], opName := "Op".toList,
    attributes := [], numInputs := 1 }

/-- The rewrite of `c3Info1` after a further canonicalization (fully
unwrapped). -/
def c3Info2 : TensorOpInfo :=
  { isApply := false, instName := "__tfop_Op".toList,
    instOperands := [.intLit 64 5], opName := "Op".toList,
    attributes := [], numInputs := 1 }

/-- An already-canonical op info: one bare-literal scalar input, no
attributes. -/
def c3CanonInfo : TensorOpInfo :=
  { isApply := false, instName := "__tfop_Add".toList,
    instOperands := [Value.intLit 64 3], opName := "Add".toList,
    attributes := [], numInputs := 1 }

/-- The `TensorHandle<Float>` type. -/
def tensorHandleFloatTy : Ty := .tensorHandleTy (.namedStruct (some "Swift") "Float")

/-- Two runtime `TensorHandle` operand values. -/
def addInstOperands : List Value :=
  [.unknownV tensorHandleFloatTy false, .unknownV tensorHandleFloatTy false]

/-- The op info decoded from an instruction named `__tfop_Add,x,y` with the
two `TensorHandle` operands: zero inputs, two `Normal` attributes. -/
def addInstInfo : TensorOpInfo :=
  { isApply := false, instName := "__tfop_Add,x,y".toList,
    instOperands := addInstOperands, opName := "Add".toList,
    attributes := [("x".toList, .Normal), ("y".toList, .Normal)],
    numInputs := 0 }

/-! ### Supporting lemmas: the array decoder -/

theorem limitedValue_64 {n : Nat} (h : n < 2 ^ 64) : limitedValue 64 (n : Int) = n := by
  have h0 : ((n : Int) % (2 ^ 64 : Int)) = (n : Int) :=
    Int.emod_eq_of_lt (by positivity) (by exact_mod_cast h)
  simp only [limitedValue, h0, Int.toNat_natCast]
  omega

theorem tailUseStore_storeAt (i : Nat) (v : Value) (h : i < 2 ^ 64) :
    tailUseStore (storeAt i v) = some (i, v) := by
  simp [tailUseStore, storeAt, limitedValue_64 h]

/-- Success of the store-walk on mapped index/value pairs, given fresh valid
slots for every index: the final slots hold exactly the stored values, the
counter drops by the number of stores, and untouched slots are unchanged. -/
theorem processTailUses_success (ps : List (Nat × Value)) :
    ∀ (slots : List (Option Value)) (n0 : Nat),
    (∀ p ∈ ps, p.1 < 2 ^ 64) →
    (∀ p ∈ ps, slots.get? p.1 = some none) →
    (ps.map Prod.fst).Nodup →
    ∃ slots', processTailUses (ps.map (fun p => storeAt p.1 p.2)) slots n0
        = some (slots', n0 - ps.length)
      ∧ slots'.length = slots.length
      ∧ (∀ p ∈ ps, slots'.get? p.1 = some (some p.2))
      ∧ (∀ j, j ∉ ps.map Prod.fst → slots'.get? j = slots.get? j) := by
  induction ps with
  | nil =>
    intro slots n0 _ _ _
    exact ⟨slots, by simp [processTailUses], rfl, by simp, fun j _ => rfl⟩
  | cons p ps ih =>
    intro slots n0 hlt hempty hnd
    obtain ⟨i, v⟩ := p
    have hi64 : i < 2 ^ 64 := hlt (i, v) (List.mem_cons_self _ _)
    have hie : slots.get? i = some none := hempty (i, v) (List.mem_cons_self _ _)
    have hilen : i < slots.length := by
      by_contra hge
      rw [List.get?_eq_none.2 (le_of_not_lt hge)] at hie
      cases hie
    have hnd2 : (ps.map Prod.fst).Nodup := (List.nodup_cons.1 (by simpa using hnd)).2
    have hinotin : i ∉ ps.map Prod.fst := (List.nodup_cons.1 (by simpa using hnd)).1
    obtain ⟨slots', hrun, hlen, hset, hother⟩ := ih (slots.set i (some v)) (n0 - 1)
      (fun q hq => hlt q (List.mem_cons_of_mem _ hq))
      (fun q hq => by
        rw [List.get?_set_ne _ _
          (fun he => hinotin (by rw [he]; exact List.mem_map_of_mem Prod.fst hq))]
        exact hempty q (List.mem_cons_of_mem _ hq))
      hnd2
    refine ⟨slots', ?_, by rw [hlen, List.length_set], ?_, ?_⟩
    · simp only [List.map_cons, processTailUses, tailUseStore_storeAt i v hi64, hie]
      rw [List.length_cons, show n0 - (ps.length + 1) = n0 - 1 - ps.length by omega]
      exact hrun
    · intro q hq
      rcases List.mem_cons.1 hq with rfl | hq2
      · rw [hother i hinotin, List.get?_set_eq_of_lt _ hilen]
      · exact hset q hq2
    · intro j hj
      have hj1 : j ∉ ps.map Prod.fst := fun hm => hj (by simp [hm])
      have hji : i ≠ j := fun he => hj (by simp [he])
      rw [hother j hj1, List.get?_set_ne _ _ hji]

/-- A successful store-walk on mapped pairs found every stored slot empty at
entry. -/
theorem processTailUses_initEmpty (ps : List (Nat × Value)) :
    ∀ (slots : List (Option Value)) (n0 : Nat) r,
    (∀ p ∈ ps, p.1 < 2 ^ 64) →
    processTailUses (ps.map (fun p => storeAt p.1 p.2)) slots n0 = some r →
    ∀ p ∈ ps, slots.get? p.1 = some none := by
  induction ps with
  | nil => intro _ _ _ _ _ p hp; cases hp
  | cons q ps ih =>
    intro slots n0 r hlt hrun p hp
    obtain ⟨i, v⟩ := q
    have hi64 : i < 2 ^ 64 := hlt (i, v) (List.mem_cons_self _ _)
    simp only [List.map_cons, processTailUses, tailUseStore_storeAt i v hi64] at hrun
    split at hrun
    · rename_i hie
      rcases List.mem_cons.1 hp with rfl | hp2
      · exact hie
      · have hPrev := ih _ _ _ (fun q hq => hlt q (List.mem_cons_of_mem _ hq)) hrun p hp2
        by_cases hji : p.1 = i
        · rw [hji]; exact hie
        · rwa [List.get?_set_ne _ _ (fun he => hji he.symm)] at hPrev
    · cases hrun

/-- A successful store-walk on mapped pairs implies the stored indices are
pairwise distinct. -/
theorem processTailUses_nodup (ps : List (Nat × Value)) :
    ∀ (slots : List (Option Value)) (n0 : Nat) r,
    (∀ p ∈ ps, p.1 < 2 ^ 64) →
    processTailUses (ps.map (fun p => storeAt p.1 p.2)) slots n0 = some r →
    (ps.map Prod.fst).Nodup := by
  induction ps with
  | nil => intro _ _ _ _ _; simp
  | cons q ps ih =>
    intro slots n0 r hlt hrun
    obtain ⟨i, v⟩ := q
    have hi64 : i < 2 ^ 64 := hlt (i, v) (List.mem_cons_self _ _)
    simp only [List.map_cons, processTailUses, tailUseStore_storeAt i v hi64] at hrun
    split at hrun
    · rename_i hie
      have hilen : i < slots.length := by
        by_contra hge
        rw [List.get?_eq_none.2 (le_of_not_lt hge)] at hie
        cases hie
      have hEmpty := processTailUses_initEmpty ps _ _ _
        (fun q hq => hlt q (List.mem_cons_of_mem _ hq)) hrun
      simp only [List.map_cons, List.nodup_cons]
      constructor
      · intro hmem
        obtain ⟨p, hp, hpi⟩ := List.mem_map.1 hmem
        have := hEmpty p hp
        rw [hpi, List.get?_set_eq_of_lt _ hilen] at this
        cases this
      · exact ih _ _ _ (fun q hq => hlt q (List.mem_cons_of_mem _ hq)) hrun
    · cases hrun

/-- After a successful store-walk, a slot that was empty at entry is either
still empty or was the target of one of the walked stores. -/
theorem processTailUses_origin : ∀ (us : List TailUse)
    (slots : List (Option Value)) (n0 : Nat) slots' rem,
    processTailUses us slots n0 = some (slots', rem) →
    ∀ j, slots.get? j = some none →
    slots'.get? j = some none ∨ ∃ u ∈ us, ∃ y, tailUseStore u = some (j, y) := by
  intro us
  induction us with
  | nil =>
    intro slots n0 slots' rem h j hj
    simp only [processTailUses, Option.some.injEq, Prod.mk.injEq] at h
    obtain ⟨rfl, rfl⟩ := h
    exact Or.inl hj
  | cons u us ih =>
    intro slots n0 slots' rem h j hj
    simp only [processTailUses] at h
    split at h
    · cases h
    · rename_i idx src hu
      split at h
      · rename_i hidx
        by_cases hji : idx = j
        · exact Or.inr ⟨u, List.mem_cons_self _ _, src, hji ▸ hu⟩
        · have hj2 : (slots.set idx (some src)).get? j = some none := by
            rwa [List.get?_set_ne _ _ hji]
          rcases ih _ _ _ _ h j hj2 with h1 | ⟨u2, hu2, y, hy⟩
          · exact Or.inl h1
          · exact Or.inr ⟨u2, List.mem_cons_of_mem _ hu2, y, hy⟩
      · cases h

/-- A use that is not a recognized constant-index store makes the whole
store-walk fail. -/
theorem processTailUses_fail : ∀ (us : List TailUse)
    (slots : List (Option Value)) (n0 : Nat),
    (∃ u ∈ us, tailUseStore u = none) →
    processTailUses us slots n0 = none := by
  intro us
  induction us with
  | nil => intro _ _ h; obtain ⟨u, hu, -⟩ := h; cases hu
  | cons u us ih =>
    intro slots n0 ⟨u2, hu2, hnone⟩
    rcases List.mem_cons.1 hu2 with rfl | hmem
    · simp [processTailUses, hnone]
    · simp only [processTailUses]
      split
      · rfl
      · split
        · exact ih _ _ ⟨u2, hmem, hnone⟩
        · rfl

theorem allSome_get? : ∀ (slots : List (Option Value)) (l : List Value),
    allSome slots = some l → ∀ j v, slots.get? j = some (some v) → l.get? j = some v := by
  intro slots
  induction slots with
  | nil => intro l h j v hj; cases hj
  | cons s rest ih =>
    intro l h j v hj
    match s with
    | none => cases h
    | some a =>
      simp only [allSome] at h
      match hr : allSome rest with
      | none => rw [hr] at h; cases h
      | some vs =>
        rw [hr] at h
        simp only [Option.some.injEq] at h
        subst h
        match j with
        | 0 =>
          simp only [List.get?] at hj ⊢
          simpa using hj
        | j + 1 =>
          simp only [List.get?] at hj ⊢
          exact ih vs hr j v hj

theorem allSome_length : ∀ (slots : List (Option Value)) (l : List Value),
    allSome slots = some l → l.length = slots.length := by
  intro slots
  induction slots with
  | nil => intro l h; cases h; rfl
  | cons s rest ih =>
    intro l h
    match s with
    | none => cases h
    | some a =>
      simp only [allSome] at h
      match hr : allSome rest with
      | none => rw [hr] at h; cases h
      | some vs =>
        rw [hr] at h
        simp only [Option.some.injEq] at h
        subst h
        simp [ih vs hr]

theorem allSome_of_noNone : ∀ (slots : List (Option Value)),
    (∀ x ∈ slots, x ≠ none) → ∃ l, allSome slots = some l := by
  intro slots
  induction slots with
  | nil => intro _; exact ⟨[], rfl⟩
  | cons s rest ih =>
    intro h
    match s with
    | none => exact absurd rfl (h none (List.mem_cons_self _ _))
    | some a =>
      obtain ⟨l, hl⟩ := ih (fun x hx => h x (List.mem_cons_of_mem _ hx))
      exact ⟨a :: l, by simp [allSome, hl]⟩

theorem allSome_none : ∀ (slots : List (Option Value)),
    none ∈ slots → allSome slots = none := by
  intro slots
  induction slots with
  | nil => intro h; cases h
  | cons s rest ih =>
    intro h
    rcases List.mem_cons.1 h with rfl | hmem
    · rfl
    · match s with
      | none => rfl
      | some a => simp [allSome, ih hmem]

/-- Evaluation of `decodeArrayElements` on the constant-construction idiom:
the type unwrapping and single-user chain reduce it to the store-walk. -/
theorem decodeArrayElements_mkArrayIdiom (elemTy allocTy : Ty) (n : Nat)
    (uses : List TailUse) (hn : n < 2 ^ 64) :
    decodeArrayElements (mkArrayIdiom elemTy allocTy n uses) =
      match processTailUses uses (List.replicate n none) n with
      | some (slots, rem) =>
        if rem = 0 then
          match allSome slots with
          | some l => some (l, elemTy)
          | none => none
        else none
      | none => none := by
  simp only [decodeArrayElements, mkArrayIdiom, Value.ty, getArrayElementType,
    decodeLoop, decodeAllocRef, limitedValue_64 hn]
  match processTailUses uses (List.replicate n none) n with
  | none => rfl
  | some (slots, rem) =>
    by_cases h : rem = 0
    · simp only [h, if_pos rfl]
      match allSome slots with
      | some l => rfl
      | none => rfl
    · simp [h]

theorem get?_replicate_none {n j : Nat} (h : j < n) :
    (List.replicate n (none : Option Value)).get? j = some none := by
  simp [List.get?_eq_getElem?, List.getElem?_replicate, h]

theorem mem_of_nodup_cover {idx : List Nat} {n : Nat} (hnd : idx.Nodup)
    (hlt : ∀ i ∈ idx, i < n) (hlen : idx.length = n) :
    ∀ j < n, j ∈ idx := by
  intro j hj
  have hsub : idx.toFinset ⊆ Finset.range n := by
    intro a ha
    exact Finset.mem_range.2 (hlt a (List.mem_toFinset.1 ha))
  have hcard : (Finset.range n).card ≤ idx.toFinset.card := by
    rw [Finset.card_range, List.toFinset_card_of_nodup hnd, hlen]
  have := Finset.eq_of_subset_of_card_le hsub hcard
  rw [← List.mem_toFinset, this]
  exact Finset.mem_range.2 hj

/-- **C1**: for every array value built via the recognized
constant-construction idiom (`alloc_ref` with constant element count `n`, a
single upcast consumer, a single tail-address consumer, stores at constant
indices), decoding succeeds and returns exactly the stored values in index
order when the `n` stores hit distinct indices `0..n-1`; a duplicate-index
store, a gap (an index `0..n-1` left unstored), or a non-integer-literal
index operand each make decoding fail. -/
theorem decodeArrayElements_const_idiom
    (elemTy allocTy : Ty) (n : Nat) (ps : List (Nat × Value))
    (hn : n < 2 ^ 64) (hps : ∀ p ∈ ps, p.1 < 2 ^ 64) :
    (((ps.map Prod.fst).Nodup ∧ (∀ p ∈ ps, p.1 < n) ∧ ps.length = n →
      ∃ l, decodeArrayElements (mkArrayIdiom elemTy allocTy n
              (ps.map (fun p => storeAt p.1 p.2))) = some (l, elemTy)
        ∧ l.length = n ∧ ∀ p ∈ ps, l.get? p.1 = some p.2)
    ∧ (¬ (ps.map Prod.fst).Nodup →
      decodeArrayElements (mkArrayIdiom elemTy allocTy n
        (ps.map (fun p => storeAt p.1 p.2))) = none)
    ∧ ((∃ i, i < n ∧ i ∉ ps.map Prod.fst) →
      decodeArrayElements (mkArrayIdiom elemTy allocTy n
        (ps.map (fun p => storeAt p.1 p.2))) = none))
    ∧ (∀ (uses : List TailUse) (w : Value) (users : List IdxUser),
        TailUse.indexU w users ∈ uses → (∀ wd vl, w ≠ Value.intLit wd vl) →
        decodeArrayElements (mkArrayIdiom elemTy allocTy n uses) = none) := by
  refine ⟨⟨?pos, ?dup, ?gap⟩, ?nonlit⟩
  case pos =>
    rintro ⟨hnd, hlt, hlen⟩
    obtain ⟨slots', hrun, hslen, hset, -⟩ :=
      processTailUses_success ps (List.replicate n none) n hps
        (fun p hp => get?_replicate_none (hlt p hp)) hnd
    have hslen2 : slots'.length = n := by simpa using hslen
    have hnoNone : ∀ x ∈ slots', x ≠ none := by
      intro x hx hxeq
      subst hxeq
      obtain ⟨j, hj⟩ := List.mem_iff_get?.1 hx
      have hjlt : j < n := by
        by_contra hge
        rw [List.get?_eq_none.2 (by omega)] at hj
        cases hj
      have hjin : j ∈ ps.map Prod.fst :=
        mem_of_nodup_cover hnd (by
          intro i hi
          obtain ⟨p, hp, rfl⟩ := List.mem_map.1 hi
          exact hlt p hp) (by simpa using hlen) j hjlt
      obtain ⟨p, hp, hpj⟩ := List.mem_map.1 hjin
      have := hset p hp
      rw [hpj, hj] at this
      cases this
    obtain ⟨l, hl⟩ := allSome_of_noNone slots' hnoNone
    refine ⟨l, ?_, ?_, ?_⟩
    · rw [decodeArrayElements_mkArrayIdiom elemTy allocTy n _ hn, hrun]
      simp [hlen, hl]
    · rw [allSome_length slots' l hl, hslen2]
    · intro p hp
      exact allSome_get? slots' l hl p.1 p.2 (hset p hp)
  case dup =>
    intro hdup
    rw [decodeArrayElements_mkArrayIdiom elemTy allocTy n _ hn]
    cases hrun : processTailUses (ps.map (fun p => storeAt p.1 p.2))
        (List.replicate n none) n with
    | none => rfl
    | some r => exact absurd (processTailUses_nodup ps _ _ _ hps hrun) hdup
  case gap =>
    rintro ⟨i, hin, hnotin⟩
    rw [decodeArrayElements_mkArrayIdiom elemTy allocTy n _ hn]
    cases hrun : processTailUses (ps.map (fun p => storeAt p.1 p.2))
        (List.replicate n none) n with
    | none => rfl
    | some r =>
      obtain ⟨slots', rem⟩ := r
      by_cases hrem : rem = 0
      · subst hrem
        rcases processTailUses_origin _ _ _ _ _ hrun i (get?_replicate_none hin)
          with hstill | ⟨u, hu, y, hy⟩
        · have : (none : Option Value) ∈ slots' := List.get?_mem hstill
          simp [allSome_none slots' this]
        · obtain ⟨p, hp, rfl⟩ := List.mem_map.1 hu
          rw [tailUseStore_storeAt p.1 p.2 (hps p hp)] at hy
          simp only [Option.some.injEq, Prod.mk.injEq] at hy
          exact absurd (hy.1 ▸ List.mem_map_of_mem Prod.fst hp) hnotin
      · simp [hrem]
  case nonlit =>
    intro uses w users hmem hnl
    rw [decodeArrayElements_mkArrayIdiom elemTy allocTy n _ hn]
    have hstore : tailUseStore (TailUse.indexU w users) = none := by
      cases w <;> first
        | rfl
        | (rename_i a b; exact absurd rfl (hnl a b))
    rw [processTailUses_fail uses _ n ⟨_, hmem, hstore⟩]

/-! ### Supporting lemmas: attribute-constant resolution -/

theorem getAttrOperand_intLit {w : Nat} (v : Int) (h : w ≤ 64) :
    getAttrOperand (.intLit w v) = some (.intLit w v) := by
  simp [getAttrOperand, Value.ty, Ty.isStdString, attrLiteralCheck,
    getScalarOperand, Value.isAddress, h]

theorem getAttrOperand_isSome_intLit32 (ints : List Int) :
    ∀ e ∈ ints.map (fun n => Value.intLit 32 n), (getAttrOperand e).isSome := by
  rintro e he
  obtain ⟨n, -, rfl⟩ := List.mem_map.1 he
  rw [getAttrOperand_intLit n (by omega)]
  rfl

theorem getAttrOperand_isSome_intLit64 (dims : List Nat) :
    ∀ e ∈ dims.map (fun d : Nat => Value.intLit 64 (d : Int)), (getAttrOperand e).isSome := by
  rintro e he
  obtain ⟨d, -, rfl⟩ := List.mem_map.1 he
  rw [getAttrOperand_intLit (d : Int) (by omega)]
  rfl

theorem decodeArrayElements_mkArrayOf (ty : Ty) (elts : List Value)
    (h : elts.length < 2 ^ 64) :
    decodeArrayElements (mkArrayOf ty elts) = some (elts, ty) := by
  have hmemlt : ∀ p ∈ elts.enum, Prod.fst p < elts.length := by
    intro p hp
    have hq := List.mem_enum_iff_get?.1 hp
    by_contra hge
    rw [List.get?_eq_none.2 (le_of_not_lt hge)] at hq
    cases hq
  obtain ⟨slots', hrun, hslen, hset, -⟩ :=
    processTailUses_success elts.enum (List.replicate elts.length none)
      elts.length
      (fun p hp => by have := hmemlt p hp; omega)
      (fun p hp => get?_replicate_none (hmemlt p hp))
      (List.nodup_enum_map_fst elts)
  have hslen2 : slots'.length = elts.length := by simpa using hslen
  have hnn : ∀ x ∈ slots', x ≠ none := by
    intro x hx hxeq
    subst hxeq
    obtain ⟨j, hj⟩ := List.mem_iff_get?.1 hx
    have hjlt : j < elts.length := by
      by_contra hge
      rw [List.get?_eq_none.2 (by omega)] at hj
      cases hj
    obtain ⟨y, hy⟩ : ∃ y, elts.get? j = some y := by
      cases hq : elts.get? j
      · rw [List.get?_eq_none] at hq; omega
      · exact ⟨_, rfl⟩
    have hmem : (j, y) ∈ elts.enum := List.mk_mem_enum_iff_get?.2 hy
    have := hset (j, y) hmem
    rw [hj] at this
    cases this
  obtain ⟨l, hl⟩ := allSome_of_noNone slots' hnn
  have hle : l = elts := by
    apply List.ext
    intro j
    by_cases hj : j < elts.length
    · obtain ⟨y, hy⟩ : ∃ y, elts.get? j = some y := by
        cases hq : elts.get? j
        · rw [List.get?_eq_none] at hq; omega
        · exact ⟨_, rfl⟩
      have hmem : (j, y) ∈ elts.enum := List.mk_mem_enum_iff_get?.2 hy
      rw [allSome_get? slots' l hl j y (hset (j, y) hmem), hy]
    · rw [List.get?_eq_none.2 (by rw [allSome_length slots' l hl, hslen2]; omega),
        List.get?_eq_none.2 (by omega)]
  unfold mkArrayOf
  rw [decodeArrayElements_mkArrayIdiom ty (.otherTy 1) elts.length _ h, hrun]
  simp [List.enum_length, hl, hle]

theorem getAttrOperand_mkArrayOf (ty : Ty) (elts : List Value)
    (hlen : elts.length < 2 ^ 64)
    (hconst : ∀ e ∈ elts, (getAttrOperand e).isSome) :
    getAttrOperand (mkArrayOf ty elts) = some (mkArrayOf ty elts) := by
  have hd := decodeArrayElements_mkArrayOf ty elts hlen
  have hall : elts.attach.all (fun e => (getAttrOperand e.1).isSome) = true := by
    rw [List.all_eq_true]
    rintro ⟨x, hx⟩ -
    exact hconst x hx
  rw [show mkArrayOf ty elts = Value.structV (Ty.arrayTy ty)
      [Value.allocRef (Ty.otherTy 1) [Value.intLit 64 (elts.length : Int)]
        [[elts.enum.map (fun p => storeAt p.1 p.2)]]] from rfl] at hd ⊢
  rw [getAttrOperand.eq_def]
  simp only [Value.ty, Ty.isStdString, Bool.false_eq_true, if_false]
  split
  · rename_i elts2 snd hm
    rw [hd] at hm
    injection hm with hm2
    injection hm2 with he1 he2
    subst he1
    rw [if_pos hall]
  · rename_i hm
    rw [hd] at hm
    cases hm

/-! ### Supporting lemmas: reflexivity of structural value equality -/

theorem valueListBeq_refl_of (l : List Value)
    (h : ∀ v ∈ l, Value.beq v v = true) : valueListBeq l l = true := by
  induction l with
  | nil => simp [valueListBeq]
  | cons v l ih =>
    simp only [valueListBeq, h v (List.mem_cons_self _ _), Bool.true_and]
    exact ih (fun x hx => h x (List.mem_cons_of_mem _ hx))

theorem idxUserListBeq_refl_of (l : List IdxUser)
    (h : ∀ u ∈ l, IdxUser.beq u u = true) : idxUserListBeq l l = true := by
  induction l with
  | nil => simp [idxUserListBeq]
  | cons u l ih =>
    simp only [idxUserListBeq, h u (List.mem_cons_self _ _), Bool.true_and]
    exact ih (fun x hx => h x (List.mem_cons_of_mem _ hx))

theorem tailUseListBeq_refl_of (l : List TailUse)
    (h : ∀ u ∈ l, TailUse.beq u u = true) : tailUseListBeq l l = true := by
  induction l with
  | nil => simp [tailUseListBeq]
  | cons u l ih =>
    simp only [tailUseListBeq, h u (List.mem_cons_self _ _), Bool.true_and]
    exact ih (fun x hx => h x (List.mem_cons_of_mem _ hx))

theorem tailUse2Beq_refl_of (ll : List (List TailUse))
    (h : ∀ l ∈ ll, ∀ u ∈ l, TailUse.beq u u = true) : tailUse2Beq ll ll = true := by
  induction ll with
  | nil => simp [tailUse2Beq]
  | cons l ll ih =>
    simp only [tailUse2Beq,
      tailUseListBeq_refl_of l (h l (List.mem_cons_self _ _)), Bool.true_and]
    exact ih (fun x hx => h x (List.mem_cons_of_mem _ hx))

theorem tailUse3Beq_refl_of (lll : List (List (List TailUse)))
    (h : ∀ ll ∈ lll, ∀ l ∈ ll, ∀ u ∈ l, TailUse.beq u u = true) :
    tailUse3Beq lll lll = true := by
  induction lll with
  | nil => simp [tailUse3Beq]
  | cons ll lll ih =>
    simp only [tailUse3Beq,
      tailUse2Beq_refl_of ll (h ll (List.mem_cons_self _ _)), Bool.true_and]
    exact ih (fun x hx => h x (List.mem_cons_of_mem _ hx))

theorem beq_refl_main : ∀ (k : Nat),
    (∀ v : Value, sizeOf v ≤ k → Value.beq v v = true)
    ∧ (∀ u : TailUse, sizeOf u ≤ k → TailUse.beq u u = true)
    ∧ (∀ i : IdxUser, sizeOf i ≤ k → IdxUser.beq i i = true) := by
  intro k
  induction k using Nat.strong_induction_on with
  | _ k ih =>
    refine ⟨?_, ?_, ?_⟩
    · intro v hv
      cases v with
      | structV t ops =>
        have hops : ∀ o ∈ ops, Value.beq o o = true := fun o ho =>
          (ih (sizeOf o) (lt_of_lt_of_le (lt_trans (List.sizeOf_lt_of_mem ho)
            (by simp only [Value.structV.sizeOf_spec]; omega)) hv)).1 o le_rfl
        simp [Value.beq, valueListBeq_refl_of ops hops]
      | enumV t p =>
        cases p with
        | none => simp [Value.beq, valueOptBeq]
        | some x =>
          have hx : Value.beq x x = true :=
            (ih (sizeOf x) (lt_of_lt_of_le
              (by simp only [Value.enumV.sizeOf_spec, Option.some.sizeOf_spec]; omega)
              hv)).1 x le_rfl
          simp [Value.beq, valueOptBeq, hx]
      | uncheckedBitwiseCast t o =>
        have ho : Value.beq o o = true :=
          (ih (sizeOf o) (lt_of_lt_of_le
            (by simp only [Value.uncheckedBitwiseCast.sizeOf_spec]; omega) hv)).1 o le_rfl
        simp [Value.beq, ho]
      | uncheckedRefCast t o =>
        have ho : Value.beq o o = true :=
          (ih (sizeOf o) (lt_of_lt_of_le
            (by simp only [Value.uncheckedRefCast.sizeOf_spec]; omega) hv)).1 o le_rfl
        simp [Value.beq, ho]
      | upcastV t o =>
        have ho : Value.beq o o = true :=
          (ih (sizeOf o) (lt_of_lt_of_le
            (by simp only [Value.upcastV.sizeOf_spec]; omega) hv)).1 o le_rfl
        simp [Value.beq, ho]
      | builtinV t kk ops =>
        have hops : ∀ o ∈ ops, Value.beq o o = true := fun o ho =>
          (ih (sizeOf o) (lt_of_lt_of_le (lt_trans (List.sizeOf_lt_of_mem ho)
            (by simp only [Value.builtinV.sizeOf_spec]; omega)) hv)).1 o le_rfl
        simp [Value.beq, valueListBeq_refl_of ops hops]
      | intLit w vl => simp [Value.beq]
      | floatLit kk b => simp [Value.beq]
      | strLit e s => simp [Value.beq]
      | metatypeV t => simp [Value.beq]
      | allocStack t srcs =>
        have hops : ∀ o ∈ srcs, Value.beq o o = true := fun o ho =>
          (ih (sizeOf o) (lt_of_lt_of_le (lt_trans (List.sizeOf_lt_of_mem ho)
            (by simp only [Value.allocStack.sizeOf_spec]; omega)) hv)).1 o le_rfl
        simp [Value.beq, valueListBeq_refl_of srcs hops]
      | allocRef t ops uu =>
        have hops : ∀ o ∈ ops, Value.beq o o = true := fun o ho =>
          (ih (sizeOf o) (lt_of_lt_of_le (lt_trans (List.sizeOf_lt_of_mem ho)
            (by simp only [Value.allocRef.sizeOf_spec]; omega)) hv)).1 o le_rfl
        have huu : ∀ ll ∈ uu, ∀ l ∈ ll, ∀ u ∈ l, TailUse.beq u u = true := by
          intro ll hll l hl u hu
          have hsz : sizeOf u < sizeOf uu :=
            lt_trans (List.sizeOf_lt_of_mem hu)
              (lt_trans (List.sizeOf_lt_of_mem hl) (List.sizeOf_lt_of_mem hll))
          exact (ih (sizeOf u) (lt_of_lt_of_le (lt_trans hsz
            (by simp only [Value.allocRef.sizeOf_spec]; omega)) hv)).2.1 u le_rfl
        simp [Value.beq, valueListBeq_refl_of ops hops, tailUse3Beq_refl_of uu huu]
      | globalValue t init =>
        cases init with
        | none => simp [Value.beq, valueOptListBeq]
        | some l =>
          have hops : ∀ o ∈ l, Value.beq o o = true := fun o ho =>
            (ih (sizeOf o) (lt_of_lt_of_le (lt_trans (List.sizeOf_lt_of_mem ho)
              (by simp only [Value.globalValue.sizeOf_spec,
                Option.some.sizeOf_spec]; omega)) hv)).1 o le_rfl
          simp [Value.beq, valueOptListBeq, valueListBeq_refl_of l hops]
      | rawPointerToRef t o =>
        have ho : Value.beq o o = true :=
          (ih (sizeOf o) (lt_of_lt_of_le
            (by simp only [Value.rawPointerToRef.sizeOf_spec]; omega) hv)).1 o le_rfl
        simp [Value.beq, ho]
      | addressToPointer o =>
        have ho : Value.beq o o = true :=
          (ih (sizeOf o) (lt_of_lt_of_le
            (by simp only [Value.addressToPointer.sizeOf_spec]; omega) hv)).1 o le_rfl
        simp [Value.beq, ho]
      | globalAddr nm => simp [Value.beq]
      | unknownV t ad => simp [Value.beq]
    · intro u hu
      cases u with
      | storeU src =>
        have hs : Value.beq src src = true :=
          (ih (sizeOf src) (lt_of_lt_of_le
            (by simp only [TailUse.storeU.sizeOf_spec]; omega) hu)).1 src le_rfl
        simp [TailUse.beq, hs]
      | indexU idx users =>
        have hi : Value.beq idx idx = true :=
          (ih (sizeOf idx) (lt_of_lt_of_le
            (by simp only [TailUse.indexU.sizeOf_spec]; omega) hu)).1 idx le_rfl
        have husers : ∀ x ∈ users, IdxUser.beq x x = true := fun x hx =>
          (ih (sizeOf x) (lt_of_lt_of_le (lt_trans (List.sizeOf_lt_of_mem hx)
            (by simp only [TailUse.indexU.sizeOf_spec]; omega)) hu)).2.2 x le_rfl
        simp [TailUse.beq, hi, idxUserListBeq_refl_of users husers]
      | otherU => simp [TailUse.beq]
    · intro i hi
      cases i with
      | storeU src =>
        have hs : Value.beq src src = true :=
          (ih (sizeOf src) (lt_of_lt_of_le
            (by simp only [IdxUser.storeU.sizeOf_spec]; omega) hi)).1 src le_rfl
        simp [IdxUser.beq, hs]
      | otherU => simp [IdxUser.beq]

theorem valueBeq_refl (v : Value) : Value.beq v v = true :=
  (beq_refl_main (sizeOf v)).1 v le_rfl

theorem valueListBeq_refl (l : List Value) : valueListBeq l l = true :=
  valueListBeq_refl_of l (fun v _ => valueBeq_refl v)

/-! ### Supporting lemmas: the name grammar -/

theorem comma_not_mem_suffix (m : AttributeModifier) :
    ',' ∉ getAttributeModifierSuffix m := by
  cases m <;> decide

theorem takeWhile_no_dollar : ∀ {a : List Char}, '$' ∉ a →
    a.takeWhile (· != '$') = a := by
  intro a h
  induction a with
  | nil => rfl
  | cons c rest ih =>
    have hc : (c != '$') = true := by
      simp only [bne_iff_ne, ne_eq]
      exact fun he => h (he ▸ List.mem_cons_self _ _)
    simp only [List.takeWhile_cons, hc, if_true, List.cons.injEq, true_and]
    exact ih (fun hm => h (List.mem_cons_of_mem _ hm))

theorem dropWhile_no_dollar : ∀ {a : List Char}, '$' ∉ a →
    a.dropWhile (· != '$') = [] := by
  intro a h
  induction a with
  | nil => rfl
  | cons c rest ih =>
    have hc : (c != '$') = true := by
      simp only [bne_iff_ne, ne_eq]
      exact fun he => h (he ▸ List.mem_cons_self _ _)
    simp only [List.dropWhile_cons, hc, if_true]
    exact ih (fun hm => h (List.mem_cons_of_mem _ hm))

theorem takeWhile_dollar_append {a : List Char} (s : List Char) (h : '$' ∉ a) :
    ((a ++ '$' :: s).takeWhile (· != '$')) = a := by
  induction a with
  | nil => simp [List.takeWhile_cons]
  | cons c rest ih =>
    have hc : (c != '$') = true := by
      simp only [bne_iff_ne, ne_eq]
      exact fun he => h (he ▸ List.mem_cons_self _ _)
    simp only [List.cons_append, List.takeWhile_cons, hc, if_true,
      List.cons.injEq, true_and]
    exact ih (fun hm => h (List.mem_cons_of_mem _ hm))

theorem dropWhile_dollar_append {a : List Char} (s : List Char) (h : '$' ∉ a) :
    ((a ++ '$' :: s).dropWhile (· != '$')) = '$' :: s := by
  induction a with
  | nil => simp [List.dropWhile_cons]
  | cons c rest ih =>
    have hc : (c != '$') = true := by
      simp only [bne_iff_ne, ne_eq]
      exact fun he => h (he ▸ List.mem_cons_self _ _)
    simp only [List.cons_append, List.dropWhile_cons, hc, if_true]
    exact ih (fun hm => h (List.mem_cons_of_mem _ hm))

theorem resolveAttrSuffix_emit (a : List Char) (m : AttributeModifier)
    (h : '$' ∉ a) :
    resolveAttrSuffix (a ++ getAttributeModifierSuffix m, .Normal) = .ok (a, m) := by
  cases m with
  | Normal =>
    simp only [resolveAttrSuffix, getAttributeModifierSuffix, List.append_nil,
      List.span_eq_take_drop, dropWhile_no_dollar h]
  | DType =>
    simp only [resolveAttrSuffix, getAttributeModifierSuffix,
      List.span_eq_take_drop,
      show ("$dtype".toList : List Char) = '$' :: "dtype".toList from rfl,
      dropWhile_dollar_append "dtype".toList h,
      takeWhile_dollar_append "dtype".toList h]
    simp
  | Tensor =>
    simp only [resolveAttrSuffix, getAttributeModifierSuffix,
      List.span_eq_take_drop,
      show ("$tensor".toList : List Char) = '$' :: "tensor".toList from rfl,
      dropWhile_dollar_append "tensor".toList h,
      takeWhile_dollar_append "tensor".toList h]
    simp
  | Shape =>
    simp only [resolveAttrSuffix, getAttributeModifierSuffix,
      List.span_eq_take_drop,
      show ("$shape".toList : List Char) = '$' :: "shape".toList from rfl,
      dropWhile_dollar_append "shape".toList h,
      takeWhile_dollar_append "shape".toList h]
    simp
  | Array =>
    simp only [resolveAttrSuffix, getAttributeModifierSuffix,
      List.span_eq_take_drop,
      show ("$array".toList : List Char) = '$' :: "array".toList from rfl,
      dropWhile_dollar_append "array".toList h,
      takeWhile_dollar_append "array".toList h]
    simp
  | ArrayElement =>
    simp only [resolveAttrSuffix, getAttributeModifierSuffix,
      List.span_eq_take_drop,
      show ("$elt".toList : List Char) = '$' :: "elt".toList from rfl,
      dropWhile_dollar_append "elt".toList h,
      takeWhile_dollar_append "elt".toList h]
    simp

theorem resolveAllSuffixes_emit (attrs : List (List Char × AttributeModifier))
    (h : ∀ p ∈ attrs, '$' ∉ p.1) :
    resolveAllSuffixes (attrs.map
      (fun p => (p.1 ++ getAttributeModifierSuffix p.2, .Normal))) = .ok attrs := by
  induction attrs with
  | nil => rfl
  | cons p attrs ih =>
    simp only [List.map_cons, resolveAllSuffixes,
      resolveAttrSuffix_emit p.1 p.2 (h p (List.mem_cons_self _ _)),
      ih (fun q hq => h q (List.mem_cons_of_mem _ hq))]

theorem splitComma_no_comma {s : List Char} (h : ',' ∉ s) :
    splitComma s = (s, []) := by
  induction s with
  | nil => rfl
  | cons c rest ih =>
    have hc : c ≠ ',' := fun he => h (he ▸ List.mem_cons_self _ _)
    simp [splitComma, ih (fun hm => h (List.mem_cons_of_mem _ hm)), hc]

theorem splitComma_append {s : List Char} (t : List Char) (h : ',' ∉ s) :
    splitComma (s ++ ',' :: t) = (s, (splitComma t).1 :: (splitComma t).2) := by
  induction s with
  | nil => simp [splitComma]
  | cons c rest ih =>
    have hc : c ≠ ',' := fun he => h (he ▸ List.mem_cons_self _ _)
    simp [splitComma, ih (fun hm => h (List.mem_cons_of_mem _ hm)), hc]

theorem splitComma_emitBody (attrs : List (List Char × AttributeModifier)) :
    ∀ (opName : List Char), ',' ∉ opName →
    (∀ p ∈ attrs, ',' ∉ p.1) →
    splitComma (opName ++
        (attrs.map (fun p => ',' :: (p.1 ++ getAttributeModifierSuffix p.2))).flatten)
      = (opName, attrs.map (fun p => p.1 ++ getAttributeModifierSuffix p.2)) := by
  induction attrs with
  | nil => intro opName hop _; simp [splitComma_no_comma hop]
  | cons p attrs ih =>
    intro opName hop hattrs
    have hseg : ',' ∉ p.1 ++ getAttributeModifierSuffix p.2 := by
      intro hm
      rcases List.mem_append.1 hm with h1 | h2
      · exact hattrs p (List.mem_cons_self _ _) h1
      · exact comma_not_mem_suffix p.2 h2
    have ihr := ih (p.1 ++ getAttributeModifierSuffix p.2) hseg
      (fun q hq => hattrs q (List.mem_cons_of_mem _ hq))
    simp only [List.map_cons, List.flatten_cons, List.cons_append,
      ← List.append_assoc]
    rw [show opName ++ (',' :: (p.1 ++ getAttributeModifierSuffix p.2 ++
        (attrs.map (fun p => ',' :: (p.1 ++ getAttributeModifierSuffix p.2))).flatten))
      = opName ++ ',' :: (p.1 ++ getAttributeModifierSuffix p.2 ++
        (attrs.map (fun p => ',' :: (p.1 ++ getAttributeModifierSuffix p.2))).flatten)
      from rfl]
    rw [splitComma_append _ hop, ihr]

theorem take_drop_tfop (rest : List Char) :
    ("__tfop_".toList ++ rest).take 7 = "__tfop_".toList
    ∧ ("__tfop_".toList ++ rest).drop 7 = rest := by
  constructor
  · rw [show 7 = ("__tfop_".toList).length from rfl, List.take_left]
  · rw [show 7 = ("__tfop_".toList).length from rfl, List.drop_left]

/-- **C2**: the name grammar round-trips: for every op name (no comma) and
every representable attribute list (names free of comma and the `$`
separator, roles from the suffix vocabulary), emitting the name and parsing
it back yields the same op name and the same `(attributeName, role)`
list. -/
theorem parseName_emitName_roundtrip (opName : List Char)
    (attrs : List (List Char × AttributeModifier))
    (hop : ',' ∉ opName)
    (hattrs : ∀ p ∈ attrs, ',' ∉ p.1 ∧ '$' ∉ p.1) :
    parseName (emitName opName attrs) = .ok opName attrs := by
  have hsplit := splitComma_emitBody attrs opName hop (fun p hp => (hattrs p hp).1)
  have hres := resolveAllSuffixes_emit attrs (fun p hp => (hattrs p hp).2)
  unfold parseName decodeTensorOpName emitName
  rw [List.append_assoc]
  rw [(take_drop_tfop _).1, (take_drop_tfop _).2, if_pos rfl, hsplit]
  simp only [List.map_map]
  have hcomp : ((fun s => (s, AttributeModifier.Normal)) ∘
      (fun p : List Char × AttributeModifier =>
        p.1 ++ getAttributeModifierSuffix p.2))
    = (fun p : List Char × AttributeModifier =>
        (p.1 ++ getAttributeModifierSuffix p.2, .Normal)) := rfl
  rw [hcomp, hres]

/-- **C2** witness: a concrete round-trip through the grammar. -/
theorem parseName_emitName_roundtrip_witness :
    parseName (emitName "Add".toList
        [("x".toList, .Tensor), ("y".toList, .Normal)])
      = .ok "Add".toList [("x".toList, .Tensor), ("y".toList, .Normal)] :=
  parseName_emitName_roundtrip "Add".toList
    [("x".toList, .Tensor), ("y".toList, .Normal)] (by decide) (by decide)

/-- **C9**: an attribute segment with an unknown role suffix is a parse
error whose diagnostic carries the offending suffix verbatim, and the
instruction does not decode as an op — the unknown suffix is never silently
treated as the default `Normal` role. -/
theorem parseName_unknown_suffix (op a s : List Char)
    (hop : ',' ∉ op) (ha1 : ',' ∉ a) (ha2 : '$' ∉ a) (hs : ',' ∉ s)
    (h1 : s ≠ "tensor".toList) (h2 : s ≠ "shape".toList)
    (h3 : s ≠ "dtype".toList) (h4 : s ≠ "array".toList)
    (h5 : s ≠ "elt".toList) :
    parseName ("__tfop_".toList ++ (op ++ ',' :: (a ++ '$' :: s)))
      = .invalid ("invalid attribute modifier '".toList ++ s ++ "'".toList)
    ∧ List.IsInfix s ("invalid attribute modifier '".toList ++ s ++ "'".toList)
    ∧ ∀ ops : List Value,
        decodeBuiltin ("__tfop_".toList ++ (op ++ ',' :: (a ++ '$' :: s))) ops
          = none := by
  have hseg : ',' ∉ (a ++ '$' :: s) := by
    intro hm
    rcases List.mem_append.1 hm with h | h
    · exact ha1 h
    · rcases List.mem_cons.1 h with he | h
      · cases he
      · exact hs h
  have hparse : parseName ("__tfop_".toList ++ (op ++ ',' :: (a ++ '$' :: s)))
      = .invalid ("invalid attribute modifier '".toList ++ s ++ "'".toList) := by
    unfold parseName decodeTensorOpName
    rw [(take_drop_tfop _).1, (take_drop_tfop _).2, if_pos rfl,
      splitComma_append _ hop, splitComma_no_comma hseg]
    simp only [List.map_cons, List.map_nil, resolveAllSuffixes, resolveAttrSuffix,
      List.span_eq_take_drop, dropWhile_dollar_append s ha2,
      takeWhile_dollar_append s ha2, if_neg h1, if_neg h2, if_neg h3,
      if_neg h4, if_neg h5]
  refine ⟨hparse, ⟨"invalid attribute modifier '".toList, "'".toList, rfl⟩, ?_⟩
  intro ops
  unfold decodeBuiltin
  rw [hparse]

/-- **C9** witness: the suffix `bogus` on attribute `foo` fails and the
diagnostic contains `bogus`. -/
theorem parseName_unknown_suffix_witness :
    parseName ("__tfop_".toList ++
        ("X".toList ++ ',' :: ("foo".toList ++ '$' :: "bogus".toList)))
      = .invalid ("invalid attribute modifier '".toList ++ "bogus".toList
          ++ "'".toList)
    ∧ List.IsInfix "bogus".toList ("invalid attribute modifier '".toList
        ++ "bogus".toList ++ "'".toList)
    ∧ ∀ ops : List Value,
        decodeBuiltin ("__tfop_".toList ++
          ("X".toList ++ ',' :: ("foo".toList ++ '$' :: "bogus".toList))) ops
          = none :=
  parseName_unknown_suffix "X".toList "foo".toList "bogus".toList
    (by decide) (by decide) (by decide) (by decide) (by decide) (by decide)
    (by decide) (by decide) (by decide)

/-- **C5**: `getAttrOperand` keeps an integer literal unchanged when its bit
width is at most 64 and fails on wider integer literals; float literals and
UTF-8 string literals are returned unchanged. -/
theorem getAttrOperand_literal_behavior :
    (∀ (w : Nat) (v : Int), w ≤ 64 →
      getAttrOperand (.intLit w v) = some (.intLit w v))
    ∧ (∀ (w : Nat) (v : Int), 64 < w → getAttrOperand (.intLit w v) = none)
    ∧ (∀ (k : FPKind) (b : Nat),
        getAttrOperand (.floatLit k b) = some (.floatLit k b))
    ∧ (∀ (s : String),
        getAttrOperand (.strLit .utf8 s) = some (.strLit .utf8 s)) := by
  refine ⟨?_, ?_, ?_, ?_⟩
  · intro w v h
    simp [getAttrOperand, Value.ty, Ty.isStdString, attrLiteralCheck,
      getScalarOperand, Value.isAddress, h]
  · intro w v h
    simp [getAttrOperand, Value.ty, Ty.isStdString, attrLiteralCheck,
      getScalarOperand, Value.isAddress, Nat.not_le.2 h]
  · intro k b
    simp [getAttrOperand, Value.ty, Ty.isStdString, attrLiteralCheck,
      getScalarOperand, Value.isAddress]
  · intro s
    simp [getAttrOperand, Value.ty, Ty.isStdString, attrLiteralCheck,
      getScalarOperand, Value.isAddress]

/-- **C5** witness: concrete literals at width 64 (kept) and 65
(rejected). -/
theorem getAttrOperand_literal_behavior_witness :
    getAttrOperand (.intLit 64 5) = some (.intLit 64 5)
    ∧ getAttrOperand (.intLit 65 5) = none
    ∧ getAttrOperand (.floatLit .ieee32 3) = some (.floatLit .ieee32 3)
    ∧ getAttrOperand (.strLit .utf8 "hi") = some (.strLit .utf8 "hi") :=
  ⟨getAttrOperand_literal_behavior.1 64 5 (by decide),
   getAttrOperand_literal_behavior.2.1 65 5 (by decide),
   getAttrOperand_literal_behavior.2.2.1 .ieee32 3,
   getAttrOperand_literal_behavior.2.2.2 "hi"⟩

/-- **C6** counterexample: `getScalarOperand` does not resolve nested
single-operand struct wrapping to the innermost value — on
`struct(struct(x))` it returns `struct(x)`, not `x`. -/
theorem getScalarOperand_nested_counterexample :
    getScalarOperand (Value.structV (Ty.namedStruct (some "Swift") "Int")
        [Value.structV (Ty.namedStruct (some "Swift") "Int")
          [Value.intLit 64 5]])
      = some (Value.structV (Ty.namedStruct (some "Swift") "Int")
          [Value.intLit 64 5])
    ∧ (some (Value.structV (Ty.namedStruct (some "Swift") "Int")
          [Value.intLit 64 5]) : Option Value)
      ≠ some (Value.intLit 64 5) := by
  refine ⟨rfl, ?_⟩
  intro h
  injection h with h2
  exact Value.noConfusion h2

/-- **C6** (amended): for a non-address value, `getScalarOperand` unwraps
exactly one level of single-operand struct construction — the sole operand is
returned as-is, so `struct(struct(x))` resolves to `struct(x)`. -/
theorem getScalarOperand_unwraps_one_level (t : Ty) (x : Value) :
    getScalarOperand (Value.structV t [x]) = some x := rfl

theorem shapeProductLoop_intLits (dims : List Nat) :
    ∀ acc, (∀ d ∈ dims, d < 2 ^ 64) →
    shapeProductLoop (dims.map (fun d : Nat => Value.intLit 64 (d : Int))) acc
      = some (dims.foldl (fun a d => a * d % 2 ^ 64) acc) := by
  induction dims with
  | nil => intro acc _; rfl
  | cons d rest ih =>
    intro acc hd
    have h64 : d < 2 ^ 64 := hd d (List.mem_cons_self _ _)
    simp only [List.map_cons, shapeProductLoop,
      @getAttrOperand_intLit 64 (d : Int) (by omega), limitedValue_64 h64,
      List.foldl_cons]
    exact ih _ (fun x hx => hd x (List.mem_cons_of_mem _ hx))

theorem modProd_zero_acc : ∀ dims : List Nat,
    dims.foldl (fun a d => a * d % 2 ^ 64) 0 = 0 := by
  intro dims
  induction dims with
  | nil => rfl
  | cons d rest ih => simpa using ih

theorem modProd_zero_mem : ∀ (dims : List Nat) (acc : Nat), 0 ∈ dims →
    dims.foldl (fun a d => a * d % 2 ^ 64) acc = 0 := by
  intro dims
  induction dims with
  | nil => intro acc h; cases h
  | cons d rest ih =>
    intro acc h
    rcases List.mem_cons.1 h with rfl | hmem
    · simp only [List.foldl_cons, Nat.mul_zero, Nat.zero_mod]
      exact modProd_zero_acc rest
    · simp only [List.foldl_cons]
      exact ih _ hmem

theorem modProd_no_zero : ∀ (dims : List Nat) (acc : Nat), 0 ∉ dims →
    acc * dims.prod < 2 ^ 64 →
    dims.foldl (fun a d => a * d % 2 ^ 64) acc = acc * dims.prod := by
  intro dims
  induction dims with
  | nil => intro acc _ _; simp
  | cons d rest ih =>
    intro acc h hlt
    have hrest0 : 0 ∉ rest := fun hm => h (List.mem_cons_of_mem _ hm)
    have hrpos : 1 ≤ rest.prod := Nat.one_le_iff_ne_zero.2 (by
      intro hz
      exact hrest0 (List.prod_eq_zero_iff.1 hz))
    rw [List.prod_cons, ← mul_assoc] at hlt
    have hltad : acc * d < 2 ^ 64 :=
      lt_of_le_of_lt (Nat.le_mul_of_pos_right _ hrpos) hlt
    simp only [List.foldl_cons, Nat.mod_eq_of_lt hltad]
    rw [ih (acc * d) hrest0 hlt, List.prod_cons, ← mul_assoc]

/-- The `uint64_t` running product of the shape-check loop equals the true
dimension product whenever that product fits in 64 bits. -/
theorem modProd_eq_prod {dims : List Nat} (h : dims.prod < 2 ^ 64) :
    dims.foldl (fun a d => a * d % 2 ^ 64) 1 = dims.prod := by
  by_cases h0 : 0 ∈ dims
  · rw [modProd_zero_mem dims 1 h0]
    exact (List.prod_eq_zero h0).symm
  · rw [modProd_no_zero dims 1 h0 (by simpa using h), one_mul]

/-- **C4**: a Tensor-role constant array attribute of size `S`, followed by a
Shape-role attribute of the same name whose decoded dimensions are constant
integers with product `P`, is rejected if and only if `P ≠ S`; the error
string contains both numbers (`P` and `S`). -/
theorem checkAttributeConstants_tensor_shape_product (a : List Char) (ety : Ty)
    (ints : List Int) (dims : List Nat) (ap : Bool)
    (hs : ints.length < 2 ^ 64) (hdlen : dims.length < 2 ^ 64)
    (hdd : ∀ d ∈ dims, d < 2 ^ 64) (hp : dims.prod < 2 ^ 64) :
    (checkAttributeConstants (tensorShapeInfo a ety ints dims ap) = []
      ↔ dims.prod = ints.length)
    ∧ (dims.prod ≠ ints.length →
        checkAttributeConstants (tensorShapeInfo a ety ints dims ap) =
          "tensor literal should have ".toList ++ (Nat.repr dims.prod).toList
            ++ (" scalars for this shape, but has ".toList
              ++ (Nat.repr ints.length).toList)
        ∧ List.IsInfix (Nat.repr dims.prod).toList
            (checkAttributeConstants (tensorShapeInfo a ety ints dims ap))
        ∧ List.IsInfix (Nat.repr ints.length).toList
            (checkAttributeConstants (tensorShapeInfo a ety ints dims ap))) := by
  have hsl2 : (ints.map (fun n => Value.intLit 32 n)).length < 2 ^ 64 := by
    rw [List.length_map]; exact hs
  have hdl2 : (dims.map (fun d : Nat => Value.intLit 64 (d : Int))).length < 2 ^ 64 := by
    rw [List.length_map]; exact hdlen
  have hga1 := getAttrOperand_mkArrayOf ety _ hsl2 (getAttrOperand_isSome_intLit32 ints)
  have hd1 := decodeArrayElements_mkArrayOf ety _ hsl2
  have hga2 := getAttrOperand_mkArrayOf ety _ hdl2 (getAttrOperand_isSome_intLit64 dims)
  have hd2 := decodeArrayElements_mkArrayOf ety _ hdl2
  have hall : (ints.map (fun n => Value.intLit 32 n)).all
      (fun e => (getAttrOperand e).isSome) = true := by
    rw [List.all_eq_true]
    exact fun x hx => getAttrOperand_isSome_intLit32 ints x hx
  have hprod := shapeProductLoop_intLits dims 1 hdd
  rw [modProd_eq_prod hp] at hprod
  have hcheck : checkAttributeConstants (tensorShapeInfo a ety ints dims ap)
      = if dims.prod = ints.length then []
        else "tensor literal should have ".toList ++ (Nat.repr dims.prod).toList
          ++ (" scalars for this shape, but has ".toList
            ++ (Nat.repr ints.length).toList) := by
    unfold checkAttributeConstants tensorShapeInfo
    simp only [mkArrayOf, mkArrayIdiom, List.length_map] at hga1 hd1 hga2 hd2 ⊢
    simp only [checkAttributeConstantsLoop, getAttrOperandAt, List.get?, hga1,
      hd1, hga2, hd2, hall, hprod, List.length_cons, List.length_nil,
      Nat.sub_self, if_true, List.length_map, List.append_assoc]
  constructor
  · rw [hcheck]
    by_cases hpe : dims.prod = ints.length
    · simp [hpe]
    · simp only [if_neg hpe]
      constructor
      · intro hmsg
        exact absurd hmsg (by simp)
      · intro he
        exact absurd he hpe
  · intro hne
    rw [hcheck, if_neg hne]
    refine ⟨rfl, ?_, ?_⟩
    · exact ⟨"tensor literal should have ".toList,
        " scalars for this shape, but has ".toList ++ (Nat.repr ints.length).toList,
        by simp⟩
    · exact ⟨"tensor literal should have ".toList ++ (Nat.repr dims.prod).toList
          ++ " scalars for this shape, but has ".toList, [],
        by simp⟩

/-- **C4** witness: a 4-element constant integer array with shape `[2,3]`
fails with counts 6 and 4 in the message; the same array with shape `[2,2]`
validates. -/
theorem checkAttributeConstants_tensor_shape_product_witness :
    (checkAttributeConstants (tensorShapeInfo "value".toList
        (Ty.namedStruct (some "Swift") "Int32") [1, 2, 3, 4] [2, 3] false) = []
      ↔ ([2, 3] : List Nat).prod = ([1, 2, 3, 4] : List Int).length)
    ∧ (checkAttributeConstants (tensorShapeInfo "value".toList
        (Ty.namedStruct (some "Swift") "Int32") [1, 2, 3, 4] [2, 2] false) = []
      ↔ ([2, 2] : List Nat).prod = ([1, 2, 3, 4] : List Int).length) :=
  ⟨(checkAttributeConstants_tensor_shape_product "value".toList
      (Ty.namedStruct (some "Swift") "Int32") [1, 2, 3, 4] [2, 3] false
      (by decide) (by decide) (by decide) (by decide)).1,
   (checkAttributeConstants_tensor_shape_product "value".toList
      (Ty.namedStruct (some "Swift") "Int32") [1, 2, 3, 4] [2, 2] false
      (by decide) (by decide) (by decide) (by decide)).1⟩

/-- **C7**: a Tensor-role attribute resolving to a decodable array of
constants with no following Shape-role attribute of the same name is
accepted when the host instruction is a function-call (`apply`) form, and
rejected with "must be followed by a shape" when it is not. -/
theorem checkAttributeConstants_tensor_requires_shape (a : List Char)
    (ety : Ty) (ints : List Int) (ap : Bool) (hlen : ints.length < 2 ^ 64) :
    checkAttributeConstants
      { isApply := ap, instName := [],
        instOperands := [mkArrayOf ety (ints.map (fun n => Value.intLit 32 n))],
        opName := [], attributes := [(a, .Tensor)], numInputs := 0 }
      = if ap then [] else
          "tensor array attribute '".toList ++ a ++
            "' must be followed by a shape".toList := by
  have hlen2 : (ints.map (fun n => Value.intLit 32 n)).length < 2 ^ 64 := by
    simpa using hlen
  have hga := getAttrOperand_mkArrayOf ety _ hlen2 (getAttrOperand_isSome_intLit32 ints)
  have hd := decodeArrayElements_mkArrayOf ety _ hlen2
  have hall : (ints.map (fun n => Value.intLit 32 n)).all
      (fun e => (getAttrOperand e).isSome) = true := by
    rw [List.all_eq_true]
    exact fun x hx => getAttrOperand_isSome_intLit32 ints x hx
  unfold checkAttributeConstants
  simp only [mkArrayOf, mkArrayIdiom] at hga hd ⊢
  simp only [checkAttributeConstantsLoop, getAttrOperandAt, List.get?, hga, hd,
    hall, List.length_cons, List.length_nil, Nat.sub_self, if_true]

/-- **C7** witness: a concrete 4-element constant array attribute with no
shape: accepted on an apply host, rejected on a builtin host. -/
theorem checkAttributeConstants_tensor_requires_shape_witness :
    checkAttributeConstants
      { isApply := true, instName := [],
        instOperands := [mkArrayOf (Ty.namedStruct (some "Swift") "Int32")
          ([1, 2, 3, 4].map (fun n => Value.intLit 32 n))],
        opName := [], attributes := [("value".toList, .Tensor)], numInputs := 0 }
      = []
    ∧ checkAttributeConstants
      { isApply := false, instName := [],
        instOperands := [mkArrayOf (Ty.namedStruct (some "Swift") "Int32")
          ([1, 2, 3, 4].map (fun n => Value.intLit 32 n))],
        opName := [], attributes := [("value".toList, .Tensor)], numInputs := 0 }
      = "tensor array attribute '".toList ++ "value".toList ++
          "' must be followed by a shape".toList :=
  ⟨checkAttributeConstants_tensor_requires_shape "value".toList
      (Ty.namedStruct (some "Swift") "Int32") [1, 2, 3, 4] true (by decide),
   checkAttributeConstants_tensor_requires_shape "value".toList
      (Ty.namedStruct (some "Swift") "Int32") [1, 2, 3, 4] false (by decide)⟩

theorem getAttrOperand_unknownV (t : Ty) (h : t.isStdString = false) :
    getAttrOperand (.unknownV t false) = none := by
  rw [getAttrOperand.eq_def]
  simp [Value.ty, h, attrLiteralCheck, getScalarOperand, Value.isAddress]

/-- Evaluation of `canonicalizeOperands` when the recomputed name or operand
list differs from the existing ones: the new builtin is built and
re-decoded. -/
theorem canonicalizeOperands_changed (info : TensorOpInfo)
    (inputs : List Value) (anm : List Char) (aops : List Value)
    (h1 : canonInputsLoop (info.instOperands.take info.numInputs) = some inputs)
    (h2 : canonAttrsLoop info.attributes (info.instOperands.drop info.numInputs)
        = some (anm, aops))
    (hcond : (("__tfop_".toList ++ info.opName ++ anm) == info.instName
        && valueListBeq (inputs ++ aops) info.instOperands) = false) :
    canonicalizeOperands info
      = match decodeBuiltin ("__tfop_".toList ++ info.opName ++ anm)
          (inputs ++ aops) with
        | some newInfo => some (newInfo, true)
        | none => none := by
  unfold canonicalizeOperands
  simp only [h1, h2, hcond, Bool.false_eq_true, if_false]

/-- **C3** (amended): canonicalizing an instruction that is already
canonical — the recomputed name and operand list equal the existing ones —
returns the original instruction object unchanged with no rewrite.  (The
original claim's further consequence, that a second call on the result of a
first call is always a no-op, is false; see the counterexample: operand
rewriting unwraps one struct layer per call.) -/
theorem canonicalizeOperands_noop_of_canonical (info : TensorOpInfo)
    (inputs : List Value) (anm : List Char) (aops : List Value)
    (h1 : canonInputsLoop (info.instOperands.take info.numInputs) = some inputs)
    (h2 : canonAttrsLoop info.attributes (info.instOperands.drop info.numInputs)
        = some (anm, aops))
    (h3 : "__tfop_".toList ++ info.opName ++ anm = info.instName)
    (h4 : inputs ++ aops = info.instOperands) :
    canonicalizeOperands info = some (info, false) := by
  unfold canonicalizeOperands
  simp only [h1, h2]
  rw [h3, h4]
  simp [valueListBeq_refl]

/-- **C3** witness: an already-canonical instruction (one scalar input that
is a bare literal, no attributes) returns unchanged. -/
theorem canonicalizeOperands_noop_of_canonical_witness :
    canonicalizeOperands c3CanonInfo = some (c3CanonInfo, false) :=
  canonicalizeOperands_noop_of_canonical c3CanonInfo [Value.intLit 64 3] [] []
    rfl rfl rfl rfl

/-- **C3** counterexample: canonicalization is not idempotent as claimed — on
an input wrapped in two single-operand structs the first call rewrites
(changed), and the second call on its result rewrites again (changed, not a
no-op returning the same instruction), because `getScalarOperand` unwraps
only one layer per call. -/
theorem canonicalizeOperands_not_idempotent :
    decodeBuiltin "__tfop_Op".toList [nestedScalarInput] = some c3Info0
    ∧ canonicalizeOperands c3Info0 = some (c3Info1, true)
    ∧ canonicalizeOperands c3Info1 = some (c3Info2, true)
    ∧ c3Info2 ≠ c3Info1 := by
  have hb1 : Value.beq (Value.structV swiftIntTy [Value.intLit 64 5])
      nestedScalarInput = false := by
    simp [Value.beq, nestedScalarInput, valueListBeq]
  have hb2 : Value.beq (Value.intLit 64 5)
      (Value.structV swiftIntTy [Value.intLit 64 5]) = false := by
    simp [Value.beq]
  refine ⟨rfl, ?_, ?_, ?_⟩
  · rw [canonicalizeOperands_changed c3Info0
      [Value.structV swiftIntTy [Value.intLit 64 5]] [] [] rfl rfl
      (by simp [c3Info0, valueListBeq, hb1])]
    rfl
  · rw [canonicalizeOperands_changed c3Info1 [Value.intLit 64 5] [] [] rfl rfl
      (by simp [c3Info1, valueListBeq, hb2])]
    rfl
  · simp [c3Info1, c3Info2]

/-- **C8** counterexample: the instruction tagged `__tfop_Add,x,y` with two
`TensorHandle` operands decodes with zero inputs and two `Normal`-role
attributes (the operand-role list is not `[(x, Input), (y, Input)]` — the
decoded roles are attribute roles), and canonicalizing it does not return it
unchanged: `getAttrOperand` fails on the `TensorHandle` operand (the C++
dereferences the null result), modelled as `none`. -/
theorem decode_add_xy_counterexample :
    decodeBuiltin "__tfop_Add,x,y".toList addInstOperands = some addInstInfo
    ∧ addInstInfo.numInputs = 0
    ∧ addInstInfo.attributes.map Prod.snd = [.Normal, .Normal]
    ∧ canonicalizeOperands addInstInfo = none := by
  refine ⟨rfl, rfl, rfl, ?_⟩
  have h2 : canonAttrsLoop addInstInfo.attributes
      (addInstInfo.instOperands.drop addInstInfo.numInputs) = none := by
    simp [addInstInfo, addInstOperands, canonAttrsLoop,
      getAttrOperand_unknownV tensorHandleFloatTy rfl]
  unfold canonicalizeOperands
  simp only [show canonInputsLoop
      (addInstInfo.instOperands.take addInstInfo.numInputs) = some []
      from rfl, h2]

/-- **C8** (amended): `__tfop_Add,x,y` with two `TensorHandle` operands
decodes successfully, but with zero inputs and attributes
`[(x, Normal), (y, Normal)]` (the name segments are attribute names in this
revision); attribute validation rejects it ("attribute 'x' requires a
constant argument"), and canonicalization fails on it rather than returning
it unchanged. -/
theorem decode_add_xy_amended :
    decodeBuiltin "__tfop_Add,x,y".toList addInstOperands = some addInstInfo
    ∧ addInstInfo.attributes = [("x".toList, .Normal), ("y".toList, .Normal)]
    ∧ addInstInfo.numInputs = 0
    ∧ checkAttributeConstants addInstInfo
        = "attribute '".toList ++ "x".toList
          ++ "' requires a constant argument".toList
    ∧ canonicalizeOperands addInstInfo = none := by
  have h2 : canonAttrsLoop addInstInfo.attributes
      (addInstInfo.instOperands.drop addInstInfo.numInputs) = none := by
    simp [addInstInfo, addInstOperands, canonAttrsLoop,
      getAttrOperand_unknownV tensorHandleFloatTy rfl]
  refine ⟨rfl, rfl, rfl, ?_, ?_⟩
  · unfold checkAttributeConstants
    simp [addInstInfo, addInstOperands, checkAttributeConstantsLoop,
      getAttrOperandAt, getAttrOperand_unknownV tensorHandleFloatTy rfl,
      List.get?]
  · unfold canonicalizeOperands
    simp only [show canonInputsLoop
        (addInstInfo.instOperands.take addInstInfo.numInputs) = some []
        from rfl, h2]

/-- **C1** witness: a two-element array stored at indices 1 then 0 decodes
to the elements in index order. -/
theorem decodeArrayElements_const_idiom_witness :
    ∃ l, decodeArrayElements (mkArrayIdiom (Ty.namedStruct (some "Swift") "Int32")
          (Ty.otherTy 1) 2
          ([((1 : Nat), Value.intLit 32 8), ((0 : Nat), Value.intLit 32 7)].map
            (fun p => storeAt p.1 p.2)))
        = some (l, Ty.namedStruct (some "Swift") "Int32")
      ∧ l.length = 2
      ∧ ∀ p ∈ [((1 : Nat), Value.intLit 32 8), ((0 : Nat), Value.intLit 32 7)],
          l.get? p.1 = some p.2 :=
  (decodeArrayElements_const_idiom (Ty.namedStruct (some "Swift") "Int32")
      (Ty.otherTy 1) 2 [((1 : Nat), Value.intLit 32 8), ((0 : Nat), Value.intLit 32 7)]
      (by decide) (by decide)).1.1
    ⟨by decide, by decide, by decide⟩

/-- **C10**: `convertSwiftTypeToTF` maps every struct type whose defining
module is not `Swift` to 0 (not representable), regardless of the struct's
name; among `Swift`-module structs, exactly the names
`Bool`/`Int8`..`UInt64`/`Float`/`Double`/`Int`/`UInt` map to non-zero
codes. -/
theorem convertSwiftTypeToTF_module_check :
    (∀ (is64 : Bool) (m : Option String) (nm : String), m ≠ some "Swift" →
      convertSwiftTypeToTF is64 (.namedStruct m nm) = 0)
    ∧ (∀ (is64 : Bool) (nm : String),
        nm ∉ (["Bool", "Int8", "UInt8", "Int16", "UInt16", "Int32", "UInt32",
               "Int64", "UInt64", "Float", "Double", "Int", "UInt"] :
            List String) →
        convertSwiftTypeToTF is64 (.namedStruct (some "Swift") nm) = 0)
    ∧ (∀ is64 : Bool,
        ∀ nm ∈ (["Bool", "Int8", "UInt8", "Int16", "UInt16", "Int32", "UInt32",
               "Int64", "UInt64", "Float", "Double", "Int", "UInt"] :
            List String),
        convertSwiftTypeToTF is64 (.namedStruct (some "Swift") nm) ≠ 0) := by
  refine ⟨?_, ?_, ?_⟩
  · intro is64 m nm h
    simp [convertSwiftTypeToTF, h]
  · intro is64 nm hm
    simp only [List.mem_cons, List.not_mem_nil, or_false, not_or] at hm
    obtain ⟨hB, hI8, hU8, hI16, hU16, hI32, hU32, hI64, hU64, hF, hD, hI, hU⟩ := hm
    simp [convertSwiftTypeToTF, hB, hI8, hU8, hI16, hU16, hI32, hU32, hI64,
      hU64, hF, hD, hI, hU]
  · intro is64 nm hm
    fin_cases hm <;> cases is64 <;> decide

/-- **C10** witness: a user-defined struct named `Float` maps to 0, the
stdlib `Float` does not. -/
theorem convertSwiftTypeToTF_module_check_witness :
    convertSwiftTypeToTF true (.namedStruct (some "MyModule") "Float") = 0
    ∧ convertSwiftTypeToTF true (.namedStruct (some "MyModule") "Int") = 0
    ∧ convertSwiftTypeToTF true (.namedStruct none "Float") = 0
    ∧ convertSwiftTypeToTF true (.namedStruct (some "Swift") "Vector") = 0
    ∧ convertSwiftTypeToTF true (.namedStruct (some "Swift") "Float") ≠ 0 :=
  ⟨convertSwiftTypeToTF_module_check.1 true (some "MyModule") "Float" (by decide),
   convertSwiftTypeToTF_module_check.1 true (some "MyModule") "Int" (by decide),
   convertSwiftTypeToTF_module_check.1 true none "Float" (by decide),
   convertSwiftTypeToTF_module_check.2.1 true "Vector" (by decide),
   convertSwiftTypeToTF_module_check.2.2 true "Float" (by decide)⟩

end TFU
